import Mathlib

/-! ipv666 : address codec, pipeline driver, alias check and artifact store

A shallow embedding of functions of `ekaley/ipv666`
(`internal/addressing/addresses.go`, `internal/statemachine/loop.go`,
`internal/app/alias.go`, `internal/app/clean.go`, `internal/data/manager.go`)
and the properties of them that the specification states.

Conventions of the embedding

* a Go `net.IP` (a `[]byte`) is a `List Nat`; a well-formed 16-byte address is
  a list of length 16 whose entries are below 256 (`IsAddr`);
* `uint8` arithmetic is arithmetic on `Nat` reduced `% 256`, `uint64`
  arithmetic is reduced `% 2 ^ 64`; Go `int` values are `Int`, with the
  truncating `/` and `%` of Go (`Int.tdiv`, `Int.tmod`);
* a run-time panic and a returned `error` are both values of `GoErr`, and a
  function that can panic or return an error returns `Except GoErr _`; where
  the value returned next to the error matters, the Go pair is kept as a pair;
* what the functions call outside the embedded files (the operating system,
  libraries, the pipeline stages, configuration keys) is a parameter.
-/

namespace Ipv666

/-- Failures of the embedded code: the run-time panics of Go and the
`error` values the functions build themselves. -/
inductive GoErr where
  /-- Run-time panic: index out of range. -/
  | indexOutOfRange
  /-- Run-time panic: integer divide by zero. -/
  | divideByZero
  /-- The error "fromNybble must be >= 0". -/
  | fromNybbleNegative
  /-- The error "toNybble must be <= 32". -/
  | toNybbleTooLarge
  /-- The error "fromNybble and toNybble must be at least one apart". -/
  | nybblesNotApart
  /-- The error "Expected file size to be a multiple of 16". -/
  | fileSizeNotMultipleOf16
  /-- The read loop of the model was given too little fuel. -/
  | outOfFuel
  /-- An error handed back by the operating system or a library call (a failed
  read, write, listing or decoding), told apart by a code. -/
  | ioError (code : Nat)
  /-- The error "Content of file ... was of unexpected length". -/
  | unexpectedLength
  /-- The error "State with value ... was unexpected". -/
  | unexpectedState
  /-- The error "Unable to find state loop timer for state ...". -/
  | timerNotFound
  /-- Run-time panic: nil pointer dereference. -/
  | nilDereference
  /-- The error "No ... were found in directory ...". -/
  | noFileInDirectory
  /-- An error returned by a pipeline stage, told apart by a code. -/
  | stageFailed (code : Nat)
  deriving DecidableEq

instance {ε α : Type} [DecidableEq ε] [DecidableEq α] : DecidableEq (Except ε α)
  | .ok a, .ok b =>
    if h : a = b then isTrue (congrArg Except.ok h) else isFalse (fun e => h (Except.ok.inj e))
  | .error a, .error b =>
    if h : a = b then isTrue (congrArg Except.error h)
    else isFalse (fun e => h (Except.error.inj e))
  | .ok _, .error _ => isFalse (fun e => Except.noConfusion e)
  | .error _, .ok _ => isFalse (fun e => Except.noConfusion e)

/-- A Go `net.IP`: a slice of bytes. -/
abbrev IP := List Nat

/-- A well-formed 16-byte address. -/
def IsAddr (a : IP) : Prop := a.length = 16 ∧ ∀ b ∈ a, b < 256

instance (a : IP) : Decidable (IsAddr a) := by
  unfold IsAddr; infer_instance

/-- The Go index expression `xs[i]` for an `int` index: panics outside
`0 ≤ i < len(xs)`. -/
def index (xs : List Nat) (i : Int) : Except GoErr Nat :=
  if i < 0 then .error .indexOutOfRange
  else match xs.get? i.toNat with
    | some x => .ok x
    | none => .error .indexOutOfRange

/-- The Go assignment `xs[i] = v` for an `int` index: panics outside
`0 ≤ i < len(xs)`. -/
def setIndex (xs : List Nat) (i : Int) (v : Nat) : Except GoErr (List Nat) :=
  if i < 0 then .error .indexOutOfRange
  else if i.toNat < xs.length then .ok (xs.set i.toNat v)
  else .error .indexOutOfRange

/-- The Go builtin `copy(dst, src)`: overwrites the first
`min(len(dst), len(src))` elements of `dst`. -/
def goCopy (dst src : List Nat) : List Nat :=
  src.take dst.length ++ dst.drop src.length

/-! ## Nybbles -/

/-- `GetNybbleFromIP`: the byte at `index / 2`, its high half for an even
index and its low half otherwise. -/
def GetNybbleFromIP (ip : IP) (idx : Int) : Except GoErr Nat := do
  let byteIndex := Int.tdiv idx 2
  let addrByte ← index ip byteIndex
  if Int.tmod idx 2 = 0 then
    pure (addrByte >>> 4)
  else
    pure (addrByte &&& 0xf)

/-- The loop of `GetNybblesFromIP`, over the values of `i` still to visit. -/
def GetNybblesFromIP.loop (ip : IP) : List Int → List Nat → Except GoErr (List Nat)
  | [], toReturn => .ok toReturn
  | i :: rest, toReturn => do
    let n ← GetNybbleFromIP ip i
    GetNybblesFromIP.loop ip rest (toReturn ++ [n])

/-- The values `lo, lo + 1, ..., hi - 1` of a counting `for` loop over `int`. -/
def intRange (lo hi : Int) : List Int :=
  (List.range (hi - lo).toNat).map (fun (k : Nat) => lo + (k : Int))

/-- `GetNybblesFromIP`: the first `nybbleCount` nybbles of the address. -/
def GetNybblesFromIP (ip : IP) (nybbleCount : Int) : Except GoErr (List Nat) :=
  GetNybblesFromIP.loop ip (intRange 0 nybbleCount) []

/-- The loop of `NybblesToIP`: `i` is the index of the next nybble, `curByte`
the byte under construction, `bytes` the bytes emitted so far. -/
def NybblesToIP.loop : List Nat → Nat → Nat → List Nat → List Nat
  | [], _, _, bytes => bytes
  | curNybble :: rest, i, curByte, bytes =>
    if i % 2 = 0 then
      NybblesToIP.loop rest (i + 1) (curByte ^^^ ((curNybble <<< 4) % 256)) bytes
    else
      NybblesToIP.loop rest (i + 1) 0 (bytes ++ [curByte ^^^ curNybble])

/-- `NybblesToIP`: packs nybbles two by two into bytes. -/
def NybblesToIP (nybbles : List Nat) : IP :=
  NybblesToIP.loop nybbles 0 0 []

/-! ## Bit flipping -/

/-- Go's `^x` on a `uint8`: the exclusive or with the all-ones byte. -/
def not8 (x : Nat) : Nat := 0xff ^^^ x

/-- The mask loop of `FlipBitsInAddress` when the first and the last byte
of the range coincide. -/
def FlipBitsInAddress.maskSame (startByte startOffset endOffset : Nat) : List Nat :=
  (List.range 16).foldl (fun maskBytes i =>
    if i = startByte then
      let firstHalf := not8 (0xff >>> startOffset)
      let secondHalf := 0xff >>> endOffset
      maskBytes ++ [firstHalf ||| secondHalf]
    else
      maskBytes ++ [0xff]) []

/-- The mask loop of `FlipBitsInAddress` when the range spans several bytes. -/
def FlipBitsInAddress.maskSpan (startByte startOffset endByte endOffset : Nat) : List Nat :=
  (List.range 16).foldl (fun maskBytes i =>
    if i < startByte then
      maskBytes ++ [0xff]
    else if i = startByte then
      maskBytes ++ [not8 (0xff >>> startOffset)]
    else if i < endByte then
      maskBytes ++ [0x00]
    else if i = endByte then
      maskBytes ++ [0xff >>> endOffset]
    else
      maskBytes ++ [0xff]) []

/-- The last loop of `FlipBitsInAddress`, over the values of `i` still to
visit: keeps the masked bits, complements the others. -/
def FlipBitsInAddress.flipLoop (toFlipBytes maskBytes : List Nat) :
    List Nat → List Nat → Except GoErr (List Nat)
  | [], flipBytes => .ok flipBytes
  | i :: rest, flipBytes => do
    let b ← index toFlipBytes (i : Int)
    let m ← index maskBytes (i : Int)
    let flippedBits := (not8 b) &&& (not8 m)
    FlipBitsInAddress.flipLoop toFlipBytes maskBytes rest (flipBytes ++ [(b &&& m) ||| flippedBits])

/-- `FlipBitsInAddress`; `startIndex` and `endIndex` are `uint8` values. -/
def FlipBitsInAddress (toFlip : IP) (startIndex endIndex : Nat) : Except GoErr IP :=
  let endIndex := (endIndex + 1) % 256
  let startByte := startIndex / 8
  let startOffset := startIndex % 8
  let endByte := endIndex / 8
  let endOffset := endIndex % 8
  let maskBytes :=
    if startByte = endByte then
      FlipBitsInAddress.maskSame startByte startOffset endOffset
    else
      FlipBitsInAddress.maskSpan startByte startOffset endByte endOffset
  FlipBitsInAddress.flipLoop toFlip maskBytes (List.range 16) []

/-! ## Halves -/

/-- Go's `uint64(b) << s` for a shift count `s`: zero once `s` reaches 64. -/
def shl64 (b s : Nat) : Nat := if s < 64 then (b <<< s) % 2 ^ 64 else 0

/-- The loop of `AddressToUints`; `i` is the index of the next byte. The
shift counts are computed in `uint`, taken to be 64 bits wide. -/
def AddressToUints.loop : List Nat → Nat → Nat → Nat → Nat × Nat
  | [], _, first, second => (first, second)
  | b :: rest, i, first, second =>
    if i < 8 then
      AddressToUints.loop rest (i + 1)
        (first ^^^ shl64 b (((7 + 2 ^ 64 - i % 2 ^ 64) % 2 ^ 64) * 8 % 2 ^ 64)) second
    else
      AddressToUints.loop rest (i + 1) first
        (second ^^^ shl64 b (((15 + 2 ^ 64 - i % 2 ^ 64) % 2 ^ 64) * 8 % 2 ^ 64))

/-- `AddressToUints`: the two 64-bit halves of an address. -/
def AddressToUints (toProcess : IP) : Nat × Nat :=
  AddressToUints.loop toProcess 0 0 0

/-- The library call `binary.BigEndian.PutUint64` on an 8-byte buffer: the
bytes of `v`, most significant first. -/
def putUint64BE (v : Nat) : List Nat :=
  [(v >>> 56) % 256, (v >>> 48) % 256, (v >>> 40) % 256, (v >>> 32) % 256,
   (v >>> 24) % 256, (v >>> 16) % 256, (v >>> 8) % 256, v % 256]

/-- `UintsToAddress`: the big-endian bytes of `first`, then those of `second`. -/
def UintsToAddress (first second : Nat) : IP :=
  let addrBytes : List Nat := []
  let processBytes := putUint64BE first
  let addrBytes := addrBytes ++ processBytes
  let processBytes := putUint64BE second
  addrBytes ++ processBytes

/-! ## Nybble fan-out -/

/-- The inner loop of `GetAdjacentNetworkAddressesFromIP`, over the values of
`j` still to visit, with the scratch slice `curNybbles` and the result so far. -/
def GetAdjacentNetworkAddressesFromIP.inner (ipNybbles : List Nat) (i : Int) :
    List Nat → List Nat → List IP → Except GoErr (List Nat × List IP)
  | [], curNybbles, toReturn => .ok (curNybbles, toReturn)
  | j :: rest, curNybbles, toReturn => do
    let n ← index ipNybbles i
    if n = j then
      GetAdjacentNetworkAddressesFromIP.inner ipNybbles i rest curNybbles toReturn
    else do
      let curNybbles ← setIndex curNybbles i j
      GetAdjacentNetworkAddressesFromIP.inner ipNybbles i rest curNybbles
        (toReturn ++ [NybblesToIP curNybbles])

/-- The outer loop of `GetAdjacentNetworkAddressesFromIP`, over the values of
`i` still to visit. -/
def GetAdjacentNetworkAddressesFromIP.outer (ipNybbles : List Nat) :
    List Int → List Nat → List IP → Except GoErr (List IP)
  | [], _, toReturn => .ok toReturn
  | i :: rest, curNybbles, toReturn => do
    let curNybbles := goCopy curNybbles ipNybbles
    let st ← GetAdjacentNetworkAddressesFromIP.inner ipNybbles i (List.range 16) curNybbles toReturn
    GetAdjacentNetworkAddressesFromIP.outer ipNybbles rest st.1 st.2

/-- `GetAdjacentNetworkAddressesFromIP`: the address followed by its
variants in one nybble of the range. -/
def GetAdjacentNetworkAddressesFromIP (toParse : IP) (fromNybble toNybble : Int) :
    Except GoErr (List IP) :=
  if fromNybble < 0 then
    .error .fromNybbleNegative
  else if toNybble > 32 then
    .error .toNybbleTooLarge
  else if fromNybble = toNybble then
    .error .nybblesNotApart
  else do
    let ipNybbles ← GetNybblesFromIP toParse 32
    let curNybbles := List.replicate ipNybbles.length 0
    GetAdjacentNetworkAddressesFromIP.outer ipNybbles (intRange fromNybble toNybble)
      curNybbles [toParse]

/-- The loop of `GetUniqueIPs`. The map `checkMap` is the list of its keys;
`key` stands for the library call `ip.String()`; `i % updateFreq` panics
for a zero `updateFreq`. -/
def GetUniqueIPs.loop {κ : Type} [DecidableEq κ] (key : IP → κ) (updateFreq : Int) :
    List IP → Nat → List κ → List IP → Except GoErr (List IP)
  | [], _, _, toReturn => .ok toReturn
  | ip :: rest, i, checkMap, toReturn =>
    if updateFreq = 0 then
      .error .divideByZero
    else if key ip ∈ checkMap then
      GetUniqueIPs.loop key updateFreq rest (i + 1) checkMap toReturn
    else
      GetUniqueIPs.loop key updateFreq rest (i + 1) (key ip :: checkMap) (toReturn ++ [ip])

/-- `GetUniqueIPs`: the addresses whose key was not seen before. -/
def GetUniqueIPs {κ : Type} [DecidableEq κ] (key : IP → κ) (ips : List IP)
    (updateFreq : Int) : Except GoErr (List IP) :=
  GetUniqueIPs.loop key updateFreq ips 0 [] []

/-- The loop of `GetAdjacentNetworkAddressesFromIPs`. -/
def GetAdjacentNetworkAddressesFromIPs.loop (fromNybble toNybble : Int) :
    List IP → List IP → Except GoErr (List IP)
  | [], toReturn => .ok toReturn
  | curIP :: rest, toReturn => do
    let newIPs ← GetAdjacentNetworkAddressesFromIP curIP fromNybble toNybble
    GetAdjacentNetworkAddressesFromIPs.loop fromNybble toNybble rest (toReturn ++ newIPs)

/-- `GetAdjacentNetworkAddressesFromIPs`; `logLoopEmitFreq` is the value of
the configuration key `LogLoopEmitFreq`. -/
def GetAdjacentNetworkAddressesFromIPs {κ : Type} [DecidableEq κ] (key : IP → κ)
    (logLoopEmitFreq : Int) (toParse : List IP) (fromNybble toNybble : Int) :
    Except GoErr (List IP) := do
  let toReturn ← GetAdjacentNetworkAddressesFromIPs.loop fromNybble toNybble toParse []
  GetUniqueIPs key toReturn logLoopEmitFreq

/-! ## Binary files

A file is the list of its bytes. Opening, writing and flushing are taken to
succeed, and a read of a regular file fills the buffer as far as bytes remain. -/

/-- `WriteIPsToBinaryFile`: the content of the file afterwards. `existing` is
the content before the call, `none` for a path with no file; the file is
opened without truncation, so bytes beyond the written ones stay. -/
def WriteIPsToBinaryFile (existing : Option (List Nat)) (addrs : List IP) : List Nat :=
  let written := addrs.foldl (fun buf addr => buf ++ addr) []
  match existing with
  | none => written
  | some old => written ++ old.drop written.length

/-- The read loop of `ReadIPsFromBinaryFile`: `unread` is what remains of the
file, `buffer` the 16-byte read buffer. -/
def ReadIPsFromBinaryFile.loop : Nat → List Nat → List Nat → List IP → Except GoErr (List IP)
  | 0, _, _, _ => .error .outOfFuel
  | fuel + 1, unread, buffer, toReturn =>
    match unread with
    | [] => .ok toReturn
    | _ :: _ =>
      let buffer := goCopy buffer (unread.take buffer.length)
      let ipBytes := goCopy (List.replicate 16 0) buffer
      ReadIPsFromBinaryFile.loop fuel (unread.drop buffer.length) buffer (toReturn ++ [ipBytes])

/-- `ReadIPsFromBinaryFile` on a file with the given content. -/
def ReadIPsFromBinaryFile (content : List Nat) : Except GoErr (List IP) :=
  if content.length % 16 ≠ 0 then
    .error .fileSizeNotMultipleOf16
  else
    ReadIPsFromBinaryFile.loop (content.length + 1) content (List.replicate 16 0) []

/-! ## Pipeline driver (`internal/statemachine/loop.go`)

The state file is `none` when the path has no file and `some content`
otherwise. `State` is an `int8`, embedded in `Int`. -/

/-- The value of an `int8` after an arithmetic operation: wrapped into
`-128 .. 127`. -/
def wrapInt8 (x : Int) : Int := (x + 128) % 256 - 128

/-- `FIRST_STATE`, that is `GEN_ADDRESSES`. -/
def FIRST_STATE : Int := 0

/-- `LAST_STATE`, that is `EMIT_METRICS`. -/
def LAST_STATE : Int := 8

/-- The library call `ioutil.ReadFile`; `fault` is an error of the read itself. -/
def readFile (file : Option (List Nat)) (fault : Option GoErr) : Except GoErr (List Nat) :=
  match fault with
  | some err => .error err
  | none =>
    match file with
    | none => .error (.ioError 2)
    | some content => .ok content

/-- `fetchStateFromFile`: the pair of the returned `State` and `error`. -/
def fetchStateFromFile (file : Option (List Nat)) (fault : Option GoErr) : Int × Option GoErr :=
  match readFile file fault with
  | .error err => (-1, some err)
  | .ok content =>
    if content.length = 0 ∨ content.length > 1 then
      (-1, some .unexpectedLength)
    else
      let state : Int := ((content.getD 0 0 : Nat) : Int)
      if state < FIRST_STATE ∨ state > LAST_STATE then
        (-1, some .unexpectedState)
      else
        (wrapInt8 state, none)

/-- `SetStateFile`: the state file afterwards and the returned `error`.
`fault` is an error of `ioutil.WriteFile`, which is taken to leave the file
as it was. -/
def SetStateFile (file : Option (List Nat)) (fault : Option GoErr) (curState : Int) :
    Option (List Nat) × Option GoErr :=
  let b : List Nat := [] ++ [(curState % 256).toNat]
  match fault with
  | some err => (file, some err)
  | none => (some b, none)

/-- The stage functions `RunStateMachine` calls. -/
inductive Stage where
  | generateCandidateAddresses
  | pingScanCandidateAddresses
  | postScanCleanup
  | fanOutNybbleAdjacent
  | fanOutSlash64s
  | cleanUpNonRecentFiles
  deriving DecidableEq

/-- What `RunStateMachine` does not decide itself: the error each stage call
returns in iteration `n` (`none` for success), the error of the write of the
state file in iteration `n`, and two configuration keys. -/
structure Env where
  stage : Nat → Stage → Option GoErr
  write : Nat → Option GoErr
  cleanUpEnabled : Bool
  exitOnFailedMetrics : Bool

/-- The `switch` of `RunStateMachine`: the stage function called in a state,
`none` when the state calls none. -/
def stageOf (cleanUpEnabled : Bool) (state : Int) : Option Stage :=
  if state = 0 then some .generateCandidateAddresses
  else if state = 1 then some .pingScanCandidateAddresses
  else if state = 2 then some .postScanCleanup
  else if state = 3 then some .fanOutNybbleAdjacent
  else if state = 4 then some .postScanCleanup
  else if state = 5 then some .fanOutSlash64s
  else if state = 6 then some .postScanCleanup
  else if state = 7 then
    if !cleanUpEnabled then none else some .cleanUpNonRecentFiles
  else none

/-- `getStateLoopTimer`, its `found` result: `init` registers one timer for
every state from `FIRST_STATE` to `LAST_STATE`. -/
def timerFound (state : Int) : Bool := decide (FIRST_STATE ≤ state ∧ state ≤ LAST_STATE)

/-- The driver at a point of its run: the variable `state`, the state file,
and the states entered so far, each with the stage function called in it. -/
structure Driver where
  state : Int
  file : Option (List Nat)
  calls : List (Int × Option Stage)
  deriving DecidableEq

/-- Where a run of the driver stands: it returned an error, or its loop is
still running. -/
inductive Outcome where
  | returned (err : GoErr) (d : Driver)
  | running (d : Driver)
  deriving DecidableEq

/-- One iteration of the loop of `RunStateMachine`, the `n`-th of the run. -/
def RunStateMachine.iteration (env : Env) (n : Nat) (d : Driver) : Outcome :=
  let call := stageOf env.cleanUpEnabled d.state
  let d := { d with calls := d.calls ++ [(d.state, call)] }
  match call.bind (env.stage n) with
  | some err => .returned err d
  | none =>
    if !timerFound d.state then
      if env.exitOnFailedMetrics then .returned .timerNotFound d
      else .returned .nilDereference d
    else
      let state := Int.tmod (wrapInt8 (d.state + 1)) (wrapInt8 (LAST_STATE + 1))
      let written := SetStateFile d.file (env.write n) state
      let d := { d with state := state, file := written.1 }
      match written.2 with
      | some err => .returned err d
      | none => .running d

/-- The loop of `RunStateMachine`, cut after `fuel` iterations. -/
def RunStateMachine.loop (env : Env) : Nat → Nat → Driver → Outcome
  | 0, _, d => .running d
  | fuel + 1, n, d =>
    match RunStateMachine.iteration env n d with
    | .returned err d => .returned err d
    | .running d => RunStateMachine.loop env fuel (n + 1) d

/-- `RunStateMachine` on a given state file, observed for `fuel` iterations of
its endless loop. -/
def RunStateMachine (env : Env) (file : Option (List Nat)) (fault : Option GoErr)
    (fuel : Nat) : Outcome :=
  let fetched := fetchStateFromFile file fault
  match fetched.2 with
  | some err => .returned err ⟨fetched.1, file, []⟩
  | none => RunStateMachine.loop env fuel 0 ⟨fetched.1, file, []⟩

/-! ## Alias check (`internal/app/alias.go`) -/

/-- Go's conversion of a finite `float64`, read as a rational number, to
`int`, taken to be 64 bits wide: the fraction is discarded, rounding toward
zero, as long as the result fits an `int64`. For any other value the result
depends on the implementation; it is the parameter `outOfRange` (on amd64
the least `int64`). -/
def floatToInt (outOfRange : Int) (x : ℚ) : Int :=
  let truncated := Int.tdiv x.num (x.den : Int)
  if -(2 ^ 63) ≤ truncated ∧ truncated < 2 ^ 63 then truncated else outOfRange

/-- `checkNetworkForAliased` from the test addresses on: `addrs` are the
generated addresses, `writeFault` and `scanFault` the errors of writing them
and of the ping scan, `found` the result of reading the scan output,
`product` the finite `float64` value of
`float64(NetworkPingCount) * NetworkBlacklistPercent`, and `outOfRange` what
the conversion to `int` gives for a product that fits no `int64`. The result
is the returned address (if any) and the aliased flag. -/
def checkNetworkForAliased (addrs : List IP) (writeFault scanFault : Option GoErr)
    (found : Except GoErr (List IP)) (product : ℚ) (outOfRange : Int) :
    Except GoErr (Option IP × Bool) :=
  match writeFault with
  | some err => .error err
  | none =>
    match scanFault with
    | some err => .error err
    | none =>
      match found with
      | .error err => .error err
      | .ok foundAddrs =>
        let threshold := floatToInt outOfRange product
        if (foundAddrs.length : Int) ≥ threshold then
          match addrs with
          | [] => .error .indexOutOfRange
          | first :: _ => .ok (some first, true)
        else
          .ok (none, false)

/-! ## Artifact store (`internal/data/manager.go`)

A pointer result is an `Option`, `none` for nil; a Go pair `(value, error)` is
a pair whose second component is `none` for a nil error. -/

/-- The variables `curBlacklist` and `curBlacklistPath`. -/
structure BlacklistCache (β : Type) where
  curBlacklist : Option β
  curBlacklistPath : String

/-- `UpdateBlacklist`: sets both variables. -/
def UpdateBlacklist {β : Type} (blacklist : Option β) (filePath : String) : BlacklistCache β :=
  ⟨blacklist, filePath⟩

/-- What `getBlacklistFromBox` calls: `packedBox.Find("blacklist.zlib")`,
`zlib.NewReader` (its error), `ioutil.ReadAll`, `BytesToIPv6Networks` and
`NewNetworkBlacklist`. -/
structure Box (ν β : Type) where
  find : Except GoErr (List Nat)
  newReader : List Nat → Option GoErr
  readAll : List Nat → Except GoErr (List Nat)
  bytesToNetworks : List Nat → Except GoErr ν
  newBlacklist : ν → β

/-- `getBlacklistFromBox`: the blacklist of the bundled compressed asset. -/
def getBlacklistFromBox {ν β : Type} (box : Box ν β) : Except GoErr β :=
  match box.find with
  | .error err => .error err
  | .ok content =>
    match box.newReader content with
    | some err => .error err
    | none =>
      match box.readAll content with
      | .error err => .error err
      | .ok decompressed =>
        match box.bytesToNetworks decompressed with
        | .error err => .error err
        | .ok nets => .ok (box.newBlacklist nets)

/-- The library call `filepath.Join` on a directory and a file name. -/
def joinPath (dir fileName : String) : String := dir ++ "/" ++ fileName

/-- `GetBlacklist`: the returned pair and the cache afterwards. `mostRecent`
is the result of `fs.GetMostRecentFileFromDirectory` (the empty name for an
empty directory), `readFromFile` is `blacklist.ReadNetworkBlacklistFromFile`. -/
def GetBlacklist {ν β : Type} (cache : BlacklistCache β) (blacklistDir : String)
    (mostRecent : Except GoErr String) (box : Box ν β)
    (readFromFile : String → Option β × Option GoErr) :
    (Option β × Option GoErr) × BlacklistCache β :=
  match mostRecent with
  | .error err => ((none, some err), cache)
  | .ok fileName =>
    if fileName = "" then
      match cache.curBlacklist with
      | some cur => ((some cur, none), cache)
      | none =>
        match getBlacklistFromBox box with
        | .error err => ((none, some err), cache)
        | .ok toReturn => ((some toReturn, none), UpdateBlacklist (some toReturn) "")
    else
      let filePath := joinPath blacklistDir fileName
      if filePath = cache.curBlacklistPath then
        ((cache.curBlacklist, none), cache)
      else
        let read := readFromFile filePath
        if read.2 = none then
          (read, UpdateBlacklist read.1 filePath)
        else
          (read, cache)

/-- `GetMostRecentTargetNetworkString`: the returned pair. `fileExists` is the
result of `fs.CheckIfFileExists`, `read` that of `ioutil.ReadFile`,
`fromBytes` is `GetIPv6NetworkFromBytesIncLength` and `toString` the
`String` method of the network. -/
def GetMostRecentTargetNetworkString {ν : Type} (fileExists : Bool)
    (read : Except GoErr (List Nat)) (fromBytes : List Nat → Except GoErr ν)
    (toString : ν → String) : String × Option GoErr :=
  if !fileExists then
    ("", none)
  else
    match read with
    | .error _ => ("", none)
    | .ok content =>
      match fromBytes content with
      | .error err => ("", some err)
      | .ok network => (toString network, none)

/-- The variables `curAliasedNetworks` and `curAliasedNetworksPath`. -/
structure AliasedCache (ν : Type) where
  curAliasedNetworks : Option ν
  curAliasedNetworksPath : String

/-- `GetAliasedNetworks`: the returned pair and the cache afterwards.
`readFromFile` is `addressing.ReadIPv6NetworksFromFile`. -/
def GetAliasedNetworks {ν : Type} (cache : AliasedCache ν) (aliasedDir : String)
    (mostRecent : Except GoErr String) (readFromFile : String → Option ν × Option GoErr) :
    (Option ν × Option GoErr) × AliasedCache ν :=
  match mostRecent with
  | .error err => ((none, some err), cache)
  | .ok fileName =>
    if fileName = "" then
      ((none, some .noFileInDirectory), cache)
    else
      let filePath := joinPath aliasedDir fileName
      if filePath = cache.curAliasedNetworksPath then
        ((cache.curAliasedNetworks, none), cache)
      else
        let read := readFromFile filePath
        if read.2 = none then
          (read, ⟨read.1, filePath⟩)
        else
          (read, cache)

/-! ## The clean command (`internal/app/clean.go`) -/

/-- `RunClean` after a successful read of the input file: `addrs` are the
addresses read, `cleanIPList` is the method `CleanIPList` of the blacklist;
the result is the list written to the output file. -/
def RunClean {κ : Type} [DecidableEq κ] (key : IP → κ) (logLoopEmitFreq : Int)
    (addrs : List IP) (cleanIPList : List IP → Int → Except GoErr (List IP)) :
    Except GoErr (List IP) := do
  let uniqAddrs ← GetUniqueIPs key addrs logLoopEmitFreq
  let outAddrs ← cleanIPList uniqAddrs logLoopEmitFreq
  pure outAddrs

/-! ## Descriptions used in the statements and proofs -/

/-- The two nybbles of every byte, high half first. -/
def nybblesOf : List Nat → List Nat
  | [] => []
  | b :: bs => (b >>> 4) :: (b &&& 0xf) :: nybblesOf bs

/-- Pairs of nybbles packed into bytes; an odd last nybble is dropped. -/
def packNybbles : List Nat → List Nat
  | x :: y :: rest => ((x <<< 4) % 256 ^^^ y) :: packNybbles rest
  | _ => []

/-- Nybble `i` of an address, arithmetically: the quotient of byte `i / 2`
by 16 for an even `i`, its remainder otherwise. -/
def nybbleAt (a : IP) (i : Nat) : Nat :=
  if i % 2 = 0 then a.getD (i / 2) 0 / 16 else a.getD (i / 2) 0 % 16

/-- One byte of the result of `FlipBitsInAddress` for a byte `b` and its mask `m`. -/
def flipByte (b m : Nat) : Nat := (b &&& m) ||| ((not8 b) &&& (not8 m))

/-- The mask byte `FlipBitsInAddress` builds at position `i`. -/
def maskAt (s e i : Nat) : Nat :=
  let e1 := (e + 1) % 256
  if s / 8 = e1 / 8 then
    if i = s / 8 then not8 (0xff >>> (s % 8)) ||| (0xff >>> (e1 % 8)) else 0xff
  else if i < s / 8 then 0xff
  else if i = s / 8 then not8 (0xff >>> (s % 8))
  else if i < e1 / 8 then 0x00
  else if i = e1 / 8 then 0xff >>> (e1 % 8)
  else 0xff

/-- Bit `i` of an address; bit 0 is the most significant bit of byte 0. -/
def bitAt (a : IP) (i : Nat) : Bool := (a.getD (i / 8) 0).testBit (7 - i % 8)

/-- The address `a` with nybble `i` replaced by `v`, arithmetically: byte
`i / 2` gets a new high half for an even `i`, a new low half otherwise. -/
def setNybble (a : IP) (i v : Nat) : IP :=
  a.set (i / 2)
    (if i % 2 = 0 then v * 16 + a.getD (i / 2) 0 % 16 else a.getD (i / 2) 0 / 16 * 16 + v)

/-- The variants of `a` in nybble `i`: the 15 other values, in increasing order. -/
def variantsAt (a : IP) (i : Nat) : List IP :=
  ((List.range 16).filter (fun j => decide (nybbleAt a i ≠ j))).map (setNybble a i)

/-- The variants of `a` in the nybbles `f, ..., t - 1`, in that order. -/
def variants (a : IP) (f t : Nat) : List IP :=
  (List.range' f (t - f)).flatMap (variantsAt a)

/-- The addresses the loop of `GetUniqueIPs` appends, given the keys already
in the map. -/
def keepNew {κ : Type} [DecidableEq κ] (key : IP → κ) : List κ → List IP → List IP
  | _, [] => []
  | seen, ip :: rest =>
    if key ip ∈ seen then keepNew key seen rest else ip :: keepNew key (key ip :: seen) rest

/-- The position of the first occurrence of `x` in `l` (the length of `l` when
`x` does not occur). -/
def firstIndex (x : IP) (l : List IP) : Nat := l.findIdx (fun z => decide (z = x))

/-- The list `r` keeps exactly the first occurrence of every address of `L`:
no address is repeated in `r`, `r` and `L` have the same addresses, `r` is a
subsequence of `L`, and two addresses come in `r` in the order of their first
occurrences in `L`. -/
def KeepsFirstOccurrences (r L : List IP) : Prop :=
  r.Nodup ∧ (∀ x, x ∈ r ↔ x ∈ L) ∧ r.Sublist L ∧
    ∀ x ∈ L, ∀ y ∈ L, (firstIndex x r < firstIndex y r ↔ firstIndex x L < firstIndex y L)

/-- The entry of the call log for the `k`-th iteration of a run started in
state `s`: the state `(s + k) mod 9` and the stage function of that state. -/
def callAt (cleanUpEnabled : Bool) (s k : Nat) : Int × Option Stage :=
  ((((s + k) % 9 : Nat) : Int), stageOf cleanUpEnabled (((s + k) % 9 : Nat) : Int))

/-- A bundled asset that decodes without error to the blacklist `b`. -/
def sampleBox (b : Nat) : Box Unit Nat :=
  ⟨.ok [], fun _ => none, fun _ => .ok [], fun _ => .ok (), fun _ => b⟩

/-- An environment in which every stage call and every write succeeds. -/
def quietEnv : Env := ⟨fun _ _ => none, fun _ => none, true, false⟩

/-- An environment in which the stage call of iteration 1 fails. -/
def failingEnv : Env :=
  ⟨fun n _ => if n = 1 then some (.stageFailed 1) else none, fun _ => none, true, false⟩

/-- The address `::1`. -/
def loopback : IP := [0, 0, 0, 0, 0, 0, 0, 0, 0, 0, 0, 0, 0, 0, 0, 1]

/-- The address `2001:db8::1`. -/
def docAddr : IP := [0x20, 0x01, 0x0d, 0xb8, 0, 0, 0, 0, 0, 0, 0, 0, 0, 0, 0, 1]

/-! # Lemmas and theorems -/

set_option maxRecDepth 100000 in
theorem byte_split (b : Nat) (hb : b < 256) :
    ((b >>> 4) <<< 4) % 256 ^^^ (b &&& 0xf) = b := by
  revert b
  decide

theorem NybblesToIP_loop_eq (ns : List Nat) :
    ∀ (i : Nat) (bytes : List Nat), i % 2 = 0 →
      NybblesToIP.loop ns i 0 bytes = bytes ++ packNybbles ns := by
  induction ns using packNybbles.induct with
  | case1 x y rest ih =>
    intro i bytes hi
    have hi1 : ¬ (i + 1) % 2 = 0 := by omega
    simp only [NybblesToIP.loop, hi, hi1, if_true, if_false, packNybbles, Nat.zero_xor]
    rw [ih (i + 1 + 1) _ (by omega)]
    simp
  | case2 t ht =>
    intro i bytes hi
    match t, ht with
    | [], _ => simp [NybblesToIP.loop, packNybbles]
    | [x], _ => simp [NybblesToIP.loop, packNybbles, hi]
    | x :: y :: rest, ht => exact absurd rfl (ht x y rest)

theorem NybblesToIP_eq (ns : List Nat) : NybblesToIP ns = packNybbles ns := by
  simp [NybblesToIP, NybblesToIP_loop_eq ns 0 [] rfl]

theorem packNybbles_nybblesOf (a : List Nat) (h : ∀ b ∈ a, b < 256) :
    packNybbles (nybblesOf a) = a := by
  induction a with
  | nil => rfl
  | cons b bs ih =>
    simp only [nybblesOf, packNybbles]
    rw [byte_split b (h b (by simp)), ih (fun c hc => h c (by simp [hc]))]

theorem length_sixteen (a : List Nat) (h : a.length = 16) :
    ∃ b0 b1 b2 b3 b4 b5 b6 b7 b8 b9 b10 b11 b12 b13 b14 b15 : Nat,
      a = [b0, b1, b2, b3, b4, b5, b6, b7, b8, b9, b10, b11, b12, b13, b14, b15] := by
  match a, h with
  | [b0, b1, b2, b3, b4, b5, b6, b7, b8, b9, b10, b11, b12, b13, b14, b15], _ =>
    exact ⟨b0, b1, b2, b3, b4, b5, b6, b7, b8, b9, b10, b11, b12, b13, b14, b15, rfl⟩

theorem shiftRight_four (b : Nat) : b >>> 4 = b / 16 := by
  rw [Nat.shiftRight_eq_div_pow]

theorem and_fifteen (b : Nat) : b &&& 0xf = b % 16 :=
  Nat.and_pow_two_sub_one_eq_mod b 4

theorem index_ofNat (xs : List Nat) (k : Nat) (hk : k < xs.length) :
    index xs (k : Int) = .ok (xs.getD k 0) := by
  have h0 : ¬ ((k : Int) < 0) := by omega
  simp [index, h0, List.getD, List.getElem?_eq_getElem hk]

theorem GetNybbleFromIP_ofNat (ip : IP) (i : Nat) (hi : i / 2 < ip.length) :
    GetNybbleFromIP ip (i : Int) = .ok (nybbleAt ip i) := by
  have h1 : Int.tdiv (i : Int) 2 = ((i / 2 : Nat) : Int) := by
    rw [Int.tdiv_eq_ediv (by omega) (by decide)]; omega
  have h2 : Int.tmod (i : Int) 2 = ((i % 2 : Nat) : Int) := by
    rw [Int.tmod_eq_emod (by omega) (by decide)]; omega
  unfold GetNybbleFromIP
  simp only []
  rw [h1, h2, index_ofNat ip _ hi]
  unfold nybbleAt
  by_cases h : i % 2 = 0
  · simp [h, shiftRight_four, bind, Except.bind, pure, Except.pure]
  · have h3 : ¬ (((i % 2 : Nat) : Int) = 0) := by omega
    simp only [h3, h, if_false, and_fifteen, bind, Except.bind, pure, Except.pure]

theorem GetNybblesFromIP_loop_ok (ip : IP) (l : List Nat) :
    ∀ acc : List Nat, (∀ i ∈ l, i / 2 < ip.length) →
      GetNybblesFromIP.loop ip (l.map (fun k => ((k : Nat) : Int))) acc
        = .ok (acc ++ l.map (nybbleAt ip)) := by
  induction l with
  | nil => intro acc _; simp [GetNybblesFromIP.loop]
  | cons i rest ih =>
    intro acc h
    simp only [List.map_cons, GetNybblesFromIP.loop]
    rw [GetNybbleFromIP_ofNat ip i (h i (by simp))]
    simp only [bind, Except.bind]
    rw [ih _ (fun j hj => h j (by simp [hj]))]
    simp

theorem intRange_zero (n : Nat) :
    intRange 0 (n : Int) = (List.range n).map (fun k => ((k : Nat) : Int)) := by
  simp only [intRange, Int.sub_zero, Int.toNat_ofNat]
  apply List.map_congr_left
  intro k _
  simp

theorem GetNybblesFromIP_ok (a : IP) (h : a.length = 16) :
    GetNybblesFromIP a 32 = .ok (nybblesOf a) := by
  have h32 : (32 : Int) = ((32 : Nat) : Int) := rfl
  unfold GetNybblesFromIP
  rw [h32, intRange_zero, GetNybblesFromIP_loop_ok a _ []
    (by intro i hi; rw [List.mem_range] at hi; omega)]
  obtain ⟨b0, b1, b2, b3, b4, b5, b6, b7, b8, b9, b10, b11, b12, b13, b14, b15, rfl⟩ :=
    length_sixteen a h
  simp [List.range, List.range.loop, nybbleAt, nybblesOf, shiftRight_four, and_fifteen]

/-- C3: splitting a 16-byte address into its 32 nybbles and packing them
again gives the address back. -/
theorem nybbles_roundtrip (a : IP) (ha : IsAddr a) :
    (GetNybblesFromIP a 32).map NybblesToIP = .ok a := by
  rw [GetNybblesFromIP_ok a ha.1]
  simp [Except.map, NybblesToIP_eq, packNybbles_nybblesOf a ha.2]

/-! ## Bit flipping -/

theorem foldl_push {α β : Type} (g : List β → α → List β) (f : α → β)
    (h : ∀ acc i, g acc i = acc ++ [f i]) (l : List α) :
    ∀ init : List β, l.foldl g init = init ++ l.map f := by
  induction l with
  | nil => intro init; simp
  | cons x xs ih => intro init; simp [List.foldl_cons, h, ih]

theorem getD_map_range (f : Nat → Nat) (n i : Nat) (h : i < n) :
    ((List.range n).map f).getD i 0 = f i := by
  simp [List.getD_eq_getElem?_getD, List.getElem?_map, List.getElem?_range h]

theorem maskBytes_eq (s e : Nat) :
    (if s / 8 = (e + 1) % 256 / 8 then
      FlipBitsInAddress.maskSame (s / 8) (s % 8) ((e + 1) % 256 % 8)
    else
      FlipBitsInAddress.maskSpan (s / 8) (s % 8) ((e + 1) % 256 / 8) ((e + 1) % 256 % 8))
    = (List.range 16).map (maskAt s e) := by
  by_cases h : s / 8 = (e + 1) % 256 / 8
  · rw [if_pos h]
    unfold FlipBitsInAddress.maskSame
    rw [foldl_push _ (maskAt s e)]
    · simp
    · intro acc i
      simp only [maskAt, if_pos h]
      split <;> rfl
  · rw [if_neg h]
    unfold FlipBitsInAddress.maskSpan
    rw [foldl_push _ (maskAt s e)]
    · simp
    · intro acc i
      simp only [maskAt, if_neg h]
      repeat' split
      all_goals rfl

theorem flipLoop_ok (a m : List Nat) (l : List Nat) :
    ∀ acc : List Nat, (∀ i ∈ l, i < a.length ∧ i < m.length) →
      FlipBitsInAddress.flipLoop a m l acc
        = .ok (acc ++ l.map (fun i => flipByte (a.getD i 0) (m.getD i 0))) := by
  induction l with
  | nil => intro acc _; simp [FlipBitsInAddress.flipLoop]
  | cons i rest ih =>
    intro acc h
    have hi := h i (by simp)
    simp only [FlipBitsInAddress.flipLoop, index_ofNat a i hi.1, index_ofNat m i hi.2,
      bind, Except.bind]
    rw [ih _ (fun j hj => h j (by simp [hj]))]
    simp [flipByte]

theorem FlipBitsInAddress_eq (a : IP) (s e : Nat) (h : a.length = 16) :
    FlipBitsInAddress a s e
      = .ok ((List.range 16).map (fun i => flipByte (a.getD i 0) (maskAt s e i))) := by
  unfold FlipBitsInAddress
  simp only []
  rw [maskBytes_eq, flipLoop_ok _ _ _ [] (by
    intro i hi
    rw [List.mem_range] at hi
    simp [h, hi])]
  simp only [List.nil_append]
  refine congrArg Except.ok (List.map_congr_left ?_)
  intro i hi
  rw [List.mem_range] at hi
  rw [getD_map_range _ _ _ hi]

theorem testBit_255 (j : Nat) : Nat.testBit 255 j = decide (j < 8) :=
  Nat.testBit_two_pow_sub_one 8 j

theorem flipByte_testBit (b m j : Nat) (hj : j < 8) :
    (flipByte b m).testBit j = if m.testBit j then b.testBit j else !b.testBit j := by
  simp only [flipByte, not8, Nat.testBit_or, Nat.testBit_and, Nat.testBit_xor, testBit_255, hj,
    decide_True]
  cases b.testBit j <;> cases m.testBit j <;> rfl

theorem flipByte_lt (b m : Nat) (hb : b < 256) (hm : m < 256) : flipByte b m < 256 := by
  have h255 : (255 : Nat) < 2 ^ 8 := by decide
  have hb8 : b < 2 ^ 8 := hb
  have hm8 : m < 2 ^ 8 := hm
  unfold flipByte not8
  exact Nat.or_lt_two_pow (Nat.and_lt_two_pow _ hm8)
    (Nat.and_lt_two_pow _ (Nat.xor_lt_two_pow h255 hm8))

theorem maskAt_testBit (s e i k : Nat) (hse : s ≤ e) (he : e ≤ 127) (hk : k < 8) :
    (maskAt s e i).testBit (7 - k) = !decide (s ≤ 8 * i + k ∧ 8 * i + k ≤ e) := by
  have he1 : (e + 1) % 256 = e + 1 := Nat.mod_eq_of_lt (by omega)
  have h7 : 7 - k < 8 := by omega
  simp only [maskAt, he1]
  repeat' split
  all_goals
    simp only [not8, Nat.testBit_or, Nat.testBit_xor, Nat.testBit_shiftRight, testBit_255, h7,
      Nat.zero_testBit, decide_True, Bool.true_xor]
    rw [Bool.eq_iff_iff]
    simp only [Bool.or_eq_true, Bool.not_eq_true', decide_eq_true_eq, decide_eq_false_iff_not,
      true_iff, false_iff, not_not, Bool.false_eq_true]
    omega

theorem shiftRight_255_lt (o : Nat) : 255 >>> o < 2 ^ 8 := by
  rw [Nat.shiftRight_eq_div_pow]
  exact Nat.lt_of_le_of_lt (Nat.div_le_self _ _) (by decide)

theorem maskAt_lt (s e i : Nat) : maskAt s e i < 256 := by
  have h255 : (255 : Nat) < 2 ^ 8 := by decide
  have hn : ∀ o, not8 (0xff >>> o) < 2 ^ 8 := fun o =>
    Nat.xor_lt_two_pow h255 (shiftRight_255_lt o)
  simp only [maskAt]
  repeat' split
  · exact Nat.or_lt_two_pow (hn _) (shiftRight_255_lt _)
  · decide
  · decide
  · exact hn _
  · decide
  · exact shiftRight_255_lt _
  · decide

theorem flipByte_flipByte (b m : Nat) (hb : b < 256) (hm : m < 256) :
    flipByte (flipByte b m) m = b := by
  apply Nat.eq_of_testBit_eq
  intro j
  by_cases hj : j < 8
  · rw [flipByte_testBit _ _ _ hj, flipByte_testBit _ _ _ hj]
    cases b.testBit j <;> cases m.testBit j <;> rfl
  · have hpow : 2 ^ 8 ≤ 2 ^ j := Nat.pow_le_pow_right (by decide) (by omega)
    have h1 : flipByte (flipByte b m) m < 2 ^ j :=
      Nat.lt_of_lt_of_le (flipByte_lt _ _ (flipByte_lt _ _ hb hm) hm) hpow
    have h2 : b < 2 ^ j := Nat.lt_of_lt_of_le hb hpow
    rw [Nat.testBit_lt_two_pow h1, Nat.testBit_lt_two_pow h2]

theorem map_getD_range (a : List Nat) (h : a.length = 16) :
    (List.range 16).map (fun i => a.getD i 0) = a := by
  obtain ⟨b0, b1, b2, b3, b4, b5, b6, b7, b8, b9, b10, b11, b12, b13, b14, b15, rfl⟩ :=
    length_sixteen a h
  rfl

theorem getD_lt_of_isAddr (a : IP) (ha : IsAddr a) (i : Nat) : a.getD i 0 < 256 := by
  rw [List.getD_eq_getElem?_getD]
  by_cases hi : i < a.length
  · rw [List.getElem?_eq_getElem hi]
    exact ha.2 _ (List.getElem_mem hi)
  · rw [List.getElem?_eq_none (by omega)]
    decide

theorem isAddr_map_range (f : Nat → Nat) (hf : ∀ i, f i < 256) :
    IsAddr ((List.range 16).map f) := by
  refine ⟨by simp, ?_⟩
  intro b hb
  rw [List.mem_map] at hb
  obtain ⟨i, _, rfl⟩ := hb
  exact hf i

/-- C1: on a 16-byte address and a bit range `s ≤ e ≤ 127`, `FlipBitsInAddress`
returns a 16-byte address whose bits `s..e` (both ends included, bit 0 the
most significant bit of byte 0) are the complements of the input's and whose
other bits are the input's. -/
theorem FlipBitsInAddress_bits (a : IP) (s e : Nat) (ha : IsAddr a) (hse : s ≤ e)
    (he : e ≤ 127) :
    ∃ r, FlipBitsInAddress a s e = .ok r ∧ IsAddr r ∧
      ∀ i, i < 128 → bitAt r i = if s ≤ i ∧ i ≤ e then !bitAt a i else bitAt a i := by
  refine ⟨_, FlipBitsInAddress_eq a s e ha.1, ?_, ?_⟩
  · exact isAddr_map_range _ (fun i =>
      flipByte_lt _ _ (getD_lt_of_isAddr a ha i) (maskAt_lt s e i))
  · intro i hi
    have h8 : i / 8 < 16 := by omega
    have hk : i % 8 < 8 := Nat.mod_lt _ (by decide)
    have hi8 : 8 * (i / 8) + i % 8 = i := Nat.div_add_mod i 8
    unfold bitAt
    rw [getD_map_range _ _ _ h8, flipByte_testBit _ _ _ (by omega),
      maskAt_testBit s e (i / 8) (i % 8) hse he hk, hi8]
    by_cases h : s ≤ i ∧ i ≤ e
    · simp [h]
    · simp [h]

theorem ok_bind {α β : Type} (x : α) (f : α → Except GoErr β) :
    (Except.ok x >>= f) = f x := rfl

theorem flip_twice_list (a : IP) (s e : Nat) (ha : IsAddr a) :
    (List.range 16).map (fun i => flipByte
      (((List.range 16).map (fun i => flipByte (a.getD i 0) (maskAt s e i))).getD i 0)
      (maskAt s e i)) = a := by
  refine Eq.trans (List.map_congr_left ?_) (map_getD_range a ha.1)
  intro i hi
  rw [List.mem_range] at hi
  rw [getD_map_range _ _ _ hi]
  exact flipByte_flipByte _ _ (getD_lt_of_isAddr a ha i) (maskAt_lt s e i)

theorem length_map_range16 (f : Nat → Nat) : ((List.range 16).map f).length = 16 := by
  rw [List.length_map, List.length_range]

/-- C2: flipping the same bit range `s ≤ e ≤ 127` of a 16-byte address twice
gives the address back. -/
theorem FlipBitsInAddress_involution (a : IP) (s e : Nat) (ha : IsAddr a) (hse : s ≤ e)
    (he : e ≤ 127) :
    (FlipBitsInAddress a s e >>= fun r => FlipBitsInAddress r s e) = .ok a := by
  have _ := hse
  have _ := he
  have h1 := FlipBitsInAddress_eq a s e ha.1
  have h2 := FlipBitsInAddress_eq _ s e
    (length_map_range16 (fun i => flipByte (a.getD i 0) (maskAt s e i)))
  rw [flip_twice_list a s e ha] at h2
  rw [h1, ok_bind]
  exact h2

/-! ## Halves -/

theorem shl64_byte (b s : Nat) (hb : b < 256) (hs : s ≤ 56) : shl64 b s = b * 2 ^ s := by
  have h1 : s < 64 := by omega
  have h2 : b * 2 ^ s < 2 ^ 64 := by
    calc b * 2 ^ s < 2 ^ 8 * 2 ^ s := Nat.mul_lt_mul_of_pos_right hb (Nat.two_pow_pos s)
      _ = 2 ^ (8 + s) := (Nat.pow_add 2 8 s).symm
      _ ≤ 2 ^ 64 := Nat.pow_le_pow_right (by decide) (by omega)
  rw [shl64, if_pos h1, Nat.shiftLeft_eq, Nat.mod_eq_of_lt h2]

theorem xor_eq_add (q y k : Nat) (hy : y < 2 ^ k) : (2 ^ k * q) ^^^ y = 2 ^ k * q + y := by
  apply Nat.eq_of_testBit_eq
  intro j
  rw [Nat.testBit_xor, Nat.testBit_mul_pow_two_add q hy j, Nat.testBit_mul_pow_two]
  by_cases hj : j < k
  · have : ¬ k ≤ j := by omega
    simp [hj, this]
  · have hk : k ≤ j := by omega
    have hyj : y < 2 ^ j := Nat.lt_of_lt_of_le hy (Nat.pow_le_pow_right (by decide) hk)
    simp [hj, hk, Nat.testBit_lt_two_pow hyj]

theorem xor_eq_add_of_dvd (x y k : Nat) (hx : 2 ^ k ∣ x) (hy : y < 2 ^ k) :
    x ^^^ y = x + y := by
  obtain ⟨q, rfl⟩ := hx
  exact xor_eq_add q y k hy

/-- The 64-bit word with the given bytes, most significant first. -/
theorem xor_word (b0 b1 b2 b3 b4 b5 b6 b7 : Nat) (h0 : b0 < 256) (h1 : b1 < 256)
    (h2 : b2 < 256) (h3 : b3 < 256) (h4 : b4 < 256) (h5 : b5 < 256) (h6 : b6 < 256)
    (h7 : b7 < 256) :
    ((((((((0 ^^^ shl64 b0 56) ^^^ shl64 b1 48) ^^^ shl64 b2 40) ^^^ shl64 b3 32)
      ^^^ shl64 b4 24) ^^^ shl64 b5 16) ^^^ shl64 b6 8) ^^^ shl64 b7 0)
    = b0 * 2 ^ 56 + b1 * 2 ^ 48 + b2 * 2 ^ 40 + b3 * 2 ^ 32 + b4 * 2 ^ 24 + b5 * 2 ^ 16
      + b6 * 2 ^ 8 + b7 := by
  rw [shl64_byte b0 56 h0 (by decide), shl64_byte b1 48 h1 (by decide),
    shl64_byte b2 40 h2 (by decide), shl64_byte b3 32 h3 (by decide),
    shl64_byte b4 24 h4 (by decide), shl64_byte b5 16 h5 (by decide),
    shl64_byte b6 8 h6 (by decide), shl64_byte b7 0 h7 (by decide), Nat.zero_xor]
  rw [xor_eq_add_of_dvd (b0 * 2 ^ 56) _ 56 (by omega) (by omega),
    xor_eq_add_of_dvd (b0 * 2 ^ 56 + b1 * 2 ^ 48) _ 48 (by omega) (by omega),
    xor_eq_add_of_dvd (b0 * 2 ^ 56 + b1 * 2 ^ 48 + b2 * 2 ^ 40) _ 40 (by omega) (by omega),
    xor_eq_add_of_dvd (b0 * 2 ^ 56 + b1 * 2 ^ 48 + b2 * 2 ^ 40 + b3 * 2 ^ 32) _ 32
      (by omega) (by omega),
    xor_eq_add_of_dvd (b0 * 2 ^ 56 + b1 * 2 ^ 48 + b2 * 2 ^ 40 + b3 * 2 ^ 32 + b4 * 2 ^ 24) _ 24
      (by omega) (by omega),
    xor_eq_add_of_dvd
      (b0 * 2 ^ 56 + b1 * 2 ^ 48 + b2 * 2 ^ 40 + b3 * 2 ^ 32 + b4 * 2 ^ 24 + b5 * 2 ^ 16) _ 16
      (by omega) (by omega),
    xor_eq_add_of_dvd
      (b0 * 2 ^ 56 + b1 * 2 ^ 48 + b2 * 2 ^ 40 + b3 * 2 ^ 32 + b4 * 2 ^ 24 + b5 * 2 ^ 16
        + b6 * 2 ^ 8) _ 8 (by omega) (by omega)]
  omega

theorem AddressToUints_sixteen (b0 b1 b2 b3 b4 b5 b6 b7 b8 b9 b10 b11 b12 b13 b14 b15 : Nat) :
    AddressToUints [b0, b1, b2, b3, b4, b5, b6, b7, b8, b9, b10, b11, b12, b13, b14, b15]
      = (((((((((0 ^^^ shl64 b0 56) ^^^ shl64 b1 48) ^^^ shl64 b2 40) ^^^ shl64 b3 32)
          ^^^ shl64 b4 24) ^^^ shl64 b5 16) ^^^ shl64 b6 8) ^^^ shl64 b7 0),
         ((((((((0 ^^^ shl64 b8 56) ^^^ shl64 b9 48) ^^^ shl64 b10 40) ^^^ shl64 b11 32)
          ^^^ shl64 b12 24) ^^^ shl64 b13 16) ^^^ shl64 b14 8) ^^^ shl64 b15 0)) := by
  simp [AddressToUints, AddressToUints.loop]

theorem UintsToAddress_eq (hi lo : Nat) :
    UintsToAddress hi lo =
      [hi / 2 ^ 56 % 256, hi / 2 ^ 48 % 256, hi / 2 ^ 40 % 256, hi / 2 ^ 32 % 256,
       hi / 2 ^ 24 % 256, hi / 2 ^ 16 % 256, hi / 2 ^ 8 % 256, hi % 256,
       lo / 2 ^ 56 % 256, lo / 2 ^ 48 % 256, lo / 2 ^ 40 % 256, lo / 2 ^ 32 % 256,
       lo / 2 ^ 24 % 256, lo / 2 ^ 16 % 256, lo / 2 ^ 8 % 256, lo % 256] := by
  simp only [UintsToAddress, putUint64BE, Nat.shiftRight_eq_div_pow, List.nil_append,
    List.cons_append]

theorem word_bytes (v : Nat) (hv : v < 2 ^ 64) :
    v / 2 ^ 56 % 256 * 2 ^ 56 + v / 2 ^ 48 % 256 * 2 ^ 48 + v / 2 ^ 40 % 256 * 2 ^ 40
      + v / 2 ^ 32 % 256 * 2 ^ 32 + v / 2 ^ 24 % 256 * 2 ^ 24 + v / 2 ^ 16 % 256 * 2 ^ 16
      + v / 2 ^ 8 % 256 * 2 ^ 8 + v % 256 = v := by
  omega

theorem AddressToUints_UintsToAddress (hi lo : Nat) (hhi : hi < 2 ^ 64) (hlo : lo < 2 ^ 64) :
    AddressToUints (UintsToAddress hi lo) = (hi, lo) := by
  have h256 : ∀ n : Nat, n % 256 < 256 := fun n => Nat.mod_lt n (by decide)
  rw [UintsToAddress_eq, AddressToUints_sixteen,
    xor_word _ _ _ _ _ _ _ _ (h256 _) (h256 _) (h256 _) (h256 _) (h256 _) (h256 _) (h256 _)
      (h256 _),
    xor_word _ _ _ _ _ _ _ _ (h256 _) (h256 _) (h256 _) (h256 _) (h256 _) (h256 _) (h256 _)
      (h256 _),
    word_bytes hi hhi, word_bytes lo hlo]

theorem UintsToAddress_AddressToUints (a : IP) (ha : IsAddr a) :
    UintsToAddress (AddressToUints a).1 (AddressToUints a).2 = a := by
  obtain ⟨hlen, hb⟩ := ha
  obtain ⟨b0, b1, b2, b3, b4, b5, b6, b7, b8, b9, b10, b11, b12, b13, b14, b15, rfl⟩ :=
    length_sixteen a hlen
  have h0 := hb b0 (by simp)
  have h1 := hb b1 (by simp)
  have h2 := hb b2 (by simp)
  have h3 := hb b3 (by simp)
  have h4 := hb b4 (by simp)
  have h5 := hb b5 (by simp)
  have h6 := hb b6 (by simp)
  have h7 := hb b7 (by simp)
  have h8 := hb b8 (by simp)
  have h9 := hb b9 (by simp)
  have h10 := hb b10 (by simp)
  have h11 := hb b11 (by simp)
  have h12 := hb b12 (by simp)
  have h13 := hb b13 (by simp)
  have h14 := hb b14 (by simp)
  have h15 := hb b15 (by simp)
  rw [AddressToUints_sixteen, xor_word b0 b1 b2 b3 b4 b5 b6 b7 h0 h1 h2 h3 h4 h5 h6 h7,
    xor_word b8 b9 b10 b11 b12 b13 b14 b15 h8 h9 h10 h11 h12 h13 h14 h15, UintsToAddress_eq]
  simp only [List.cons.injEq, and_true]
  refine ⟨?_, ?_, ?_, ?_, ?_, ?_, ?_, ?_, ?_, ?_, ?_, ?_, ?_, ?_, ?_, ?_⟩ <;> omega

/-- C4: `AddressToUints` and `UintsToAddress` are inverse to each other on
16-byte addresses and pairs of 64-bit words, and `UintsToAddress` lays out
`hi` big-endian in bytes 0..7 and `lo` big-endian in bytes 8..15. -/
theorem halves_roundtrip (a : IP) (hi lo : Nat) (ha : IsAddr a) (hhi : hi < 2 ^ 64)
    (hlo : lo < 2 ^ 64) :
    UintsToAddress (AddressToUints a).1 (AddressToUints a).2 = a ∧
    AddressToUints (UintsToAddress hi lo) = (hi, lo) ∧
    IsAddr (UintsToAddress hi lo) ∧
    ∀ k, k < 8 →
      (UintsToAddress hi lo).getD k 0 = hi / 2 ^ (8 * (7 - k)) % 256 ∧
      (UintsToAddress hi lo).getD (8 + k) 0 = lo / 2 ^ (8 * (7 - k)) % 256 := by
  refine ⟨UintsToAddress_AddressToUints a ha, AddressToUints_UintsToAddress hi lo hhi hlo,
    ?_, ?_⟩
  · rw [UintsToAddress_eq]
    refine ⟨rfl, ?_⟩
    intro b hb
    simp only [List.mem_cons, List.mem_singleton, List.not_mem_nil, or_false] at hb
    omega
  · intro k hk
    rw [UintsToAddress_eq]
    interval_cases k <;> simp

/-! ## Nybble fan-out -/

theorem setIndex_ofNat (xs : List Nat) (k v : Nat) (hk : k < xs.length) :
    setIndex xs (k : Int) v = .ok (xs.set k v) := by
  have h0 : ¬ ((k : Int) < 0) := by omega
  simp [setIndex, h0, hk]

theorem inner_ok (ns : List Nat) (i : Nat) (hi : i < ns.length) (js : List Nat) :
    ∀ cur ret, (∀ x, cur.set i x = ns.set i x) →
      ∃ cur', GetAdjacentNetworkAddressesFromIP.inner ns (i : Int) js cur ret
          = .ok (cur', ret ++ (js.filter (fun j => decide (ns.getD i 0 ≠ j))).map
              (fun j => NybblesToIP (ns.set i j)))
        ∧ ∀ x, cur'.set i x = ns.set i x := by
  induction js with
  | nil =>
    intro cur ret hcur
    exact ⟨cur, by simp [GetAdjacentNetworkAddressesFromIP.inner], hcur⟩
  | cons j rest ih =>
    intro cur ret hcur
    have hlen : i < cur.length := by
      have := congrArg List.length (hcur 0)
      simp only [List.length_set] at this
      omega
    unfold GetAdjacentNetworkAddressesFromIP.inner
    rw [index_ofNat ns i hi, ok_bind]
    by_cases hj : ns.getD i 0 = j
    · rw [if_pos hj]
      obtain ⟨cur', h1, h2⟩ := ih cur ret hcur
      refine ⟨cur', ?_, h2⟩
      rw [h1, List.filter_cons_of_neg (by rw [decide_eq_true_eq]; exact not_not.mpr hj)]
    · rw [if_neg hj, setIndex_ofNat cur i j hlen, ok_bind]
      obtain ⟨cur', h1, h2⟩ := ih (cur.set i j) (ret ++ [NybblesToIP (cur.set i j)])
        (by intro x; rw [List.set_set]; exact hcur x)
      refine ⟨cur', ?_, h2⟩
      rw [h1, hcur j, List.filter_cons_of_pos (by rw [decide_eq_true_eq]; exact hj),
        List.map_cons, List.append_assoc, List.singleton_append]

theorem goCopy_same_length (dst src : List Nat) (h : dst.length = src.length) :
    goCopy dst src = src := by
  simp [goCopy, h]

theorem outer_ok (ns : List Nat) (is : List Nat) :
    ∀ cur ret, cur.length = ns.length → (∀ i ∈ is, i < ns.length) →
      GetAdjacentNetworkAddressesFromIP.outer ns (is.map (fun k => ((k : Nat) : Int))) cur ret
        = .ok (ret ++ is.flatMap (fun i =>
            ((List.range 16).filter (fun j => decide (ns.getD i 0 ≠ j))).map
              (fun j => NybblesToIP (ns.set i j)))) := by
  induction is with
  | nil => intro cur ret _ _; simp [GetAdjacentNetworkAddressesFromIP.outer]
  | cons i rest ih =>
    intro cur ret hcur his
    have hi : i < ns.length := his i (by simp)
    rw [List.map_cons]
    unfold GetAdjacentNetworkAddressesFromIP.outer
    simp only []
    rw [goCopy_same_length cur ns hcur]
    obtain ⟨cur', h1, h2⟩ := inner_ok ns i hi (List.range 16) ns ret (fun _ => rfl)
    rw [h1, ok_bind]
    have hlen' : cur'.length = ns.length := by
      have := congrArg List.length (h2 0)
      simpa only [List.length_set] using this
    rw [ih cur' _ hlen' (fun k hk => his k (by simp [hk]))]
    simp

theorem nybblesOf_getD (a : List Nat) : ∀ i, (nybblesOf a).getD i 0 = nybbleAt a i := by
  induction a with
  | nil => intro i; simp [nybblesOf, nybbleAt]
  | cons b bs ih =>
    intro i
    match i with
    | 0 => simp [nybblesOf, nybbleAt, shiftRight_four]
    | 1 => simp [nybblesOf, nybbleAt, and_fifteen]
    | k + 2 =>
      have h := ih k
      have h2 : (k + 2) / 2 = k / 2 + 1 := by omega
      have h3 : (k + 2) % 2 = k % 2 := by omega
      simp only [nybblesOf, nybbleAt, h2, h3, List.getD_cons_succ] at h ⊢
      exact h

theorem nybblesOf_length (a : List Nat) : (nybblesOf a).length = 2 * a.length := by
  induction a with
  | nil => rfl
  | cons b bs ih => simp only [nybblesOf, List.length_cons, ih]; omega

theorem pack_high (j b : Nat) (hj : j < 16) :
    (j <<< 4) % 256 ^^^ (b &&& 0xf) = j * 16 + b % 16 := by
  have h1 : (j <<< 4) % 256 = 2 ^ 4 * j := by
    rw [Nat.shiftLeft_eq, Nat.mod_eq_of_lt (by omega)]; omega
  rw [h1, and_fifteen, xor_eq_add j (b % 16) 4 (Nat.mod_lt _ (by decide))]
  omega

theorem pack_low (j b : Nat) (hj : j < 16) (hb : b < 256) :
    ((b >>> 4) <<< 4) % 256 ^^^ j = b / 16 * 16 + j := by
  have h1 : ((b >>> 4) <<< 4) % 256 = 2 ^ 4 * (b / 16) := by
    rw [shiftRight_four, Nat.shiftLeft_eq, Nat.mod_eq_of_lt (by omega)]; omega
  rw [h1, xor_eq_add (b / 16) j 4 hj]
  omega

theorem packNybbles_set (a : List Nat) (j : Nat) (hj : j < 16) :
    (∀ b ∈ a, b < 256) → ∀ i, packNybbles ((nybblesOf a).set i j) = setNybble a i j := by
  induction a with
  | nil => intro _ i; simp [nybblesOf, packNybbles, setNybble]
  | cons b bs ih =>
    intro hb i
    have hbs : ∀ c ∈ bs, c < 256 := fun c hc => hb c (by simp [hc])
    have hb0 : b < 256 := hb b (by simp)
    match i with
    | 0 =>
      simp only [nybblesOf, List.set_cons_zero, packNybbles, packNybbles_nybblesOf bs hbs,
        pack_high j b hj]
      simp [setNybble]
    | 1 =>
      simp only [nybblesOf, List.set_cons_succ, List.set_cons_zero, packNybbles,
        packNybbles_nybblesOf bs hbs, pack_low j b hj hb0]
      simp [setNybble]
    | k + 2 =>
      have h2 : (k + 2) / 2 = k / 2 + 1 := by omega
      have h3 : (k + 2) % 2 = k % 2 := by omega
      simp only [nybblesOf, List.set_cons_succ, packNybbles, byte_split b hb0, ih hbs k]
      simp only [setNybble, h2, h3, List.set_cons_succ, List.getD_cons_succ]

theorem setNybble_length (a : IP) (i v : Nat) : (setNybble a i v).length = a.length := by
  simp [setNybble]

theorem setNybble_isAddr (a : IP) (i v : Nat) (ha : IsAddr a) (hv : v < 16) :
    IsAddr (setNybble a i v) := by
  refine ⟨by rw [setNybble_length]; exact ha.1, ?_⟩
  intro b hb
  unfold setNybble at hb
  rcases List.mem_or_eq_of_mem_set hb with h | h
  · exact ha.2 b h
  · have := getD_lt_of_isAddr a ha (i / 2)
    rw [h]
    split <;> omega

theorem nybbleAt_setNybble (a : IP) (i v k : Nat) (hi : i / 2 < a.length) (hv : v < 16) :
    nybbleAt (setNybble a i v) k = if k = i then v else nybbleAt a k := by
  unfold nybbleAt setNybble
  rw [List.getD_eq_getElem?_getD, List.getElem?_set]
  by_cases hk : i / 2 = k / 2
  · rw [if_pos hk]
    simp only [hi, if_true, Option.getD_some]
    rw [← hk]
    by_cases h1 : k = i
    · subst h1
      simp only [if_true]
      split <;> omega
    · simp only [h1, if_false]
      have h2 : k % 2 ≠ i % 2 := by omega
      by_cases h3 : k % 2 = 0
      · have h4 : ¬ i % 2 = 0 := by omega
        simp only [h3, h4, if_true, if_false]
        omega
      · have h4 : i % 2 = 0 := by omega
        simp only [h3, h4, if_true, if_false]
        omega
  · rw [if_neg hk]
    have h1 : ¬ k = i := by intro h; subst h; exact hk rfl
    simp only [h1, if_false, List.getD_eq_getElem?_getD]

theorem flatMap_congr_mem {α β : Type} (l : List α) (f g : α → List β)
    (h : ∀ x ∈ l, f x = g x) : l.flatMap f = l.flatMap g := by
  induction l with
  | nil => rfl
  | cons x xs ih =>
    rw [List.flatMap_cons, List.flatMap_cons, h x (by simp),
      ih (fun y hy => h y (by simp [hy]))]

theorem intRange_ofNat (f t : Nat) :
    intRange (f : Int) (t : Int) = (List.range' f (t - f)).map (fun k => ((k : Nat) : Int)) := by
  unfold intRange
  rw [Int.toNat_sub, List.range'_eq_map_range, List.map_map]
  apply List.map_congr_left
  intro k _
  simp

theorem code_variants_eq (a : IP) (i : Nat) (ha : IsAddr a) :
    ((List.range 16).filter (fun j => decide ((nybblesOf a).getD i 0 ≠ j))).map
        (fun j => NybblesToIP ((nybblesOf a).set i j))
      = variantsAt a i := by
  unfold variantsAt
  rw [nybblesOf_getD]
  apply List.map_congr_left
  intro j hj
  have hj16 : j < 16 := List.mem_range.mp (List.mem_filter.mp hj).1
  rw [NybblesToIP_eq, packNybbles_set a j hj16 ha.2 i]

theorem GetAdjacent_eq (a : IP) (f t : Nat) (ha : IsAddr a) (hft : f ≠ t) (ht : t ≤ 32) :
    GetAdjacentNetworkAddressesFromIP a (f : Int) (t : Int) = .ok (a :: variants a f t) := by
  have h1 : ¬ ((f : Int) < 0) := by omega
  have h2 : ¬ ((t : Int) > 32) := by omega
  have h3 : ¬ ((f : Int) = (t : Int)) := by omega
  have hlen : (nybblesOf a).length = 32 := by rw [nybblesOf_length, ha.1]
  unfold GetAdjacentNetworkAddressesFromIP
  rw [if_neg h1, if_neg h2, if_neg h3, GetNybblesFromIP_ok a ha.1, ok_bind]
  simp only []
  rw [intRange_ofNat, outer_ok (nybblesOf a) _ _ _ (by simp)
    (by intro i hi; rw [List.mem_range'_1] at hi; omega)]
  rw [flatMap_congr_mem _ _ (variantsAt a) (fun i _ => code_variants_eq a i ha)]
  rfl

theorem nybbleAt_lt (a : IP) (ha : IsAddr a) (i : Nat) : nybbleAt a i < 16 := by
  have := getD_lt_of_isAddr a ha (i / 2)
  unfold nybbleAt
  split <;> omega

theorem mem_variantsAt (a : IP) (i : Nat) (x : IP) :
    x ∈ variantsAt a i ↔ ∃ v, v < 16 ∧ nybbleAt a i ≠ v ∧ setNybble a i v = x := by
  unfold variantsAt
  rw [List.mem_map]
  constructor
  · rintro ⟨v, hv, rfl⟩
    rw [List.mem_filter, List.mem_range, decide_eq_true_eq] at hv
    exact ⟨v, hv.1, hv.2, rfl⟩
  · rintro ⟨v, hv, hne, rfl⟩
    refine ⟨v, ?_, rfl⟩
    rw [List.mem_filter, List.mem_range, decide_eq_true_eq]
    exact ⟨hv, hne⟩

theorem mem_variants (a : IP) (f t : Nat) (x : IP) :
    x ∈ variants a f t ↔ ∃ i, (f ≤ i ∧ i < f + (t - f)) ∧ x ∈ variantsAt a i := by
  unfold variants
  rw [List.mem_flatMap]
  constructor
  · rintro ⟨i, hi, hx⟩
    exact ⟨i, List.mem_range'_1.mp hi, hx⟩
  · rintro ⟨i, hi, hx⟩
    exact ⟨i, List.mem_range'_1.mpr hi, hx⟩

theorem length_flatMap_const {α β : Type} (l : List α) (f : α → List β) (c : Nat)
    (h : ∀ x ∈ l, (f x).length = c) : (l.flatMap f).length = c * l.length := by
  induction l with
  | nil => simp
  | cons x xs ih =>
    rw [List.flatMap_cons, List.length_append, h x (by simp),
      ih (fun y hy => h y (by simp [hy])), List.length_cons, Nat.mul_succ]
    omega

theorem length_filter_ne (n : Nat) (hn : n < 16) :
    ((List.range 16).filter (fun j => decide (n ≠ j))).length = 15 := by
  interval_cases n <;> rfl

theorem variantsAt_length (a : IP) (ha : IsAddr a) (i : Nat) : (variantsAt a i).length = 15 := by
  unfold variantsAt
  rw [List.length_map, length_filter_ne _ (nybbleAt_lt a ha i)]

theorem variants_length (a : IP) (ha : IsAddr a) (f t : Nat) :
    (variants a f t).length = 15 * (t - f) := by
  unfold variants
  rw [length_flatMap_const _ _ 15 (fun i _ => variantsAt_length a ha i), List.length_range']

theorem differs_of_mem_variantsAt (a : IP) (ha : IsAddr a) (i : Nat) (hi : i < 32) (x : IP)
    (hx : x ∈ variantsAt a i) :
    IsAddr x ∧ nybbleAt x i ≠ nybbleAt a i ∧ ∀ k, k ≠ i → nybbleAt x k = nybbleAt a k := by
  obtain ⟨v, hv, hne, rfl⟩ := (mem_variantsAt a i x).mp hx
  have hi2 : i / 2 < a.length := by rw [ha.1]; omega
  refine ⟨setNybble_isAddr a i v ha hv, ?_, ?_⟩
  · rw [nybbleAt_setNybble a i v i hi2 hv, if_pos rfl]
    exact fun h => hne h.symm
  · intro k hk
    rw [nybbleAt_setNybble a i v k hi2 hv, if_neg hk]

theorem ext_nybbles (x y : IP) (hx : IsAddr x) (hy : IsAddr y)
    (h : ∀ k, k < 32 → nybbleAt x k = nybbleAt y k) : x = y := by
  apply List.ext_getElem (by rw [hx.1, hy.1])
  intro n h1 h2
  have hn : n < 16 := by rw [hx.1] at h1; exact h1
  have e1 := h (2 * n) (by omega)
  have e2 := h (2 * n + 1) (by omega)
  have d1 : 2 * n / 2 = n := by omega
  have d2 : (2 * n + 1) / 2 = n := by omega
  have m1 : 2 * n % 2 = 0 := by omega
  have m2 : ¬ (2 * n + 1) % 2 = 0 := by omega
  simp only [nybbleAt, d1, d2, m1, m2, if_true, if_false, List.getD_eq_getElem?_getD,
    List.getElem?_eq_getElem h1, List.getElem?_eq_getElem h2, Option.getD_some] at e1 e2
  omega

theorem eq_setNybble_of_differs (a x : IP) (ha : IsAddr a) (hx : IsAddr x) (i : Nat)
    (hi : i < 32) (h : ∀ k, k < 32 → k ≠ i → nybbleAt x k = nybbleAt a k) :
    x = setNybble a i (nybbleAt x i) := by
  have hv := nybbleAt_lt x hx i
  have hi2 : i / 2 < a.length := by rw [ha.1]; omega
  apply ext_nybbles x _ hx (setNybble_isAddr a i _ ha hv)
  intro k hk
  rw [nybbleAt_setNybble a i _ k hi2 hv]
  by_cases hki : k = i
  · rw [if_pos hki, hki]
  · rw [if_neg hki, h k hk hki]

theorem variants_nodup (a : IP) (ha : IsAddr a) (f t : Nat) (ht : t ≤ 32) :
    (a :: variants a f t).Nodup := by
  rw [List.nodup_cons]
  constructor
  · intro hmem
    obtain ⟨i, hi, hx⟩ := (mem_variants a f t a).mp hmem
    exact (differs_of_mem_variantsAt a ha i (by omega) a hx).2.1 rfl
  · unfold variants
    rw [List.nodup_flatMap]
    constructor
    · intro i hi
      have hi32 : i < 32 := by rw [List.mem_range'_1] at hi; omega
      have hi2 : i / 2 < a.length := by rw [ha.1]; omega
      unfold variantsAt
      refine List.Nodup.map_on ?_ ((List.nodup_range 16).filter _)
      intro v hv w hw hvw
      have hv16 : v < 16 := List.mem_range.mp (List.mem_filter.mp hv).1
      have hw16 : w < 16 := List.mem_range.mp (List.mem_filter.mp hw).1
      have := congrArg (fun y => nybbleAt y i) hvw
      simp only [nybbleAt_setNybble a i v i hi2 hv16, nybbleAt_setNybble a i w i hi2 hw16,
        if_true] at this
      exact this
    · refine List.Nodup.pairwise_of_forall_ne (List.nodup_range' f (t - f)) ?_
      intro i hi j hj hij
      have hi32 : i < 32 := by rw [List.mem_range'_1] at hi; omega
      have hj32 : j < 32 := by rw [List.mem_range'_1] at hj; omega
      show List.Disjoint (variantsAt a i) (variantsAt a j)
      rw [List.disjoint_left]
      intro x hxi hxj
      have h1 := differs_of_mem_variantsAt a ha i hi32 x hxi
      have h2 := differs_of_mem_variantsAt a ha j hj32 x hxj
      exact h1.2.1 (h2.2.2 i hij)

theorem countP_eq_one_of_mem (l : List IP) (x : IP) (hnd : l.Nodup) (hx : x ∈ l) :
    l.countP (fun y => decide (y = x)) = 1 :=
  @List.count_eq_one_of_mem IP (fun u v => decEq u v) x l hnd hx

/-- C5: for a 16-byte address and `0 ≤ f < t ≤ 32` the fan-out succeeds; its
list contains the address, has at most `1 + 15 * (t - f)` elements, and every
other element is a 16-byte address that differs from it in exactly one
nybble, whose index lies in `[f, t)`. -/
theorem GetAdjacentNetworkAddressesFromIP_sound (a : IP) (f t : Int) (ha : IsAddr a)
    (hf : 0 ≤ f) (hft : f < t) (ht : t ≤ 32) :
    ∃ r, GetAdjacentNetworkAddressesFromIP a f t = .ok r ∧ a ∈ r ∧
      (r.length : Int) ≤ 1 + 15 * (t - f) ∧
      ∀ x ∈ r, x ≠ a → IsAddr x ∧ ∃ i : Nat, f ≤ (i : Int) ∧ (i : Int) < t ∧
        nybbleAt x i ≠ nybbleAt a i ∧ ∀ k, k < 32 → k ≠ i → nybbleAt x k = nybbleAt a k := by
  obtain ⟨fn, rfl⟩ := Int.eq_ofNat_of_zero_le hf
  obtain ⟨tn, rfl⟩ := Int.eq_ofNat_of_zero_le (Int.le_trans hf (Int.le_of_lt hft))
  have hft' : fn < tn := by omega
  have ht' : tn ≤ 32 := by omega
  refine ⟨a :: variants a fn tn, GetAdjacent_eq a fn tn ha (by omega) ht', by simp, ?_, ?_⟩
  · rw [List.length_cons, variants_length a ha]
    omega
  · intro x hx hxa
    rcases List.mem_cons.mp hx with h | h
    · exact absurd h hxa
    · obtain ⟨i, hi, hxi⟩ := (mem_variants a fn tn x).mp h
      have hd := differs_of_mem_variantsAt a ha i (by omega) x hxi
      exact ⟨hd.1, i, by omega, by omega, hd.2.1, fun k _ hk => hd.2.2 k hk⟩

/-- C6: for a 16-byte address and `0 ≤ f < t ≤ 32` the list of the fan-out has
no repeated element and exactly `1 + 15 * (t - f)` elements, and every
16-byte address that differs from the input in exactly one nybble, with index
in `[f, t)`, occurs in it exactly once. -/
theorem GetAdjacentNetworkAddressesFromIP_complete (a : IP) (f t : Int) (ha : IsAddr a)
    (hf : 0 ≤ f) (hft : f < t) (ht : t ≤ 32) :
    ∃ r, GetAdjacentNetworkAddressesFromIP a f t = .ok r ∧ r.Nodup ∧
      (r.length : Int) = 1 + 15 * (t - f) ∧
      ∀ x, IsAddr x →
        (∃ i : Nat, f ≤ (i : Int) ∧ (i : Int) < t ∧ nybbleAt x i ≠ nybbleAt a i ∧
          ∀ k, k < 32 → k ≠ i → nybbleAt x k = nybbleAt a k) →
        r.countP (fun y => decide (y = x)) = 1 := by
  obtain ⟨fn, rfl⟩ := Int.eq_ofNat_of_zero_le hf
  obtain ⟨tn, rfl⟩ := Int.eq_ofNat_of_zero_le (Int.le_trans hf (Int.le_of_lt hft))
  have hft' : fn < tn := by omega
  have ht' : tn ≤ 32 := by omega
  have hnd := variants_nodup a ha fn tn ht'
  refine ⟨a :: variants a fn tn, GetAdjacent_eq a fn tn ha (by omega) ht', hnd, ?_, ?_⟩
  · rw [List.length_cons, variants_length a ha]
    omega
  · rintro x hx ⟨i, hi1, hi2, hne, hsame⟩
    refine countP_eq_one_of_mem _ x hnd ?_
    apply List.mem_cons_of_mem
    rw [mem_variants]
    refine ⟨i, by omega, ?_⟩
    rw [mem_variantsAt]
    exact ⟨nybbleAt x i, nybbleAt_lt x hx i, fun h => hne h.symm,
      (eq_setNybble_of_differs a x ha hx i (by omega) hsame).symm⟩

theorem intRange_eq_nil (lo hi : Int) (h : hi ≤ lo) : intRange lo hi = [] := by
  unfold intRange
  rw [Int.toNat_eq_zero.mpr (by omega)]
  rfl

theorem GetAdjacent_reversed (a : IP) (f t : Int) (ha : IsAddr a) (hf : 0 ≤ f)
    (ht : t ≤ 32) (hft : t < f) :
    GetAdjacentNetworkAddressesFromIP a f t = .ok [a] := by
  have h1 : ¬ (f < 0) := by omega
  have h2 : ¬ (t > 32) := by omega
  have h3 : ¬ (f = t) := by omega
  unfold GetAdjacentNetworkAddressesFromIP
  rw [if_neg h1, if_neg h2, if_neg h3, GetNybblesFromIP_ok a ha.1, ok_bind]
  simp only []
  rw [intRange_eq_nil f t (by omega), GetAdjacentNetworkAddressesFromIP.outer]

theorem GetAdjacent_fails_iff (a : IP) (f t : Int) (ha : IsAddr a) :
    (∃ e, GetAdjacentNetworkAddressesFromIP a f t = .error e) ↔ (f < 0 ∨ t > 32 ∨ f = t) := by
  constructor
  · rintro ⟨e, he⟩
    by_contra hguard
    have h1 : 0 ≤ f := by omega
    have h2 : t ≤ 32 := by omega
    have h3 : f ≠ t := by omega
    by_cases hlt : t < f
    · rw [GetAdjacent_reversed a f t ha h1 h2 hlt] at he
      exact Except.noConfusion he
    · obtain ⟨fn, rfl⟩ := Int.eq_ofNat_of_zero_le h1
      obtain ⟨tn, rfl⟩ := Int.eq_ofNat_of_zero_le (by omega : (0 : Int) ≤ t)
      rw [GetAdjacent_eq a fn tn ha (by omega) (by omega)] at he
      exact Except.noConfusion he
  · intro h
    unfold GetAdjacentNetworkAddressesFromIP
    by_cases h1 : f < 0
    · exact ⟨_, by rw [if_pos h1]⟩
    · by_cases h2 : t > 32
      · exact ⟨_, by rw [if_neg h1, if_pos h2]⟩
      · have h3 : f = t := by omega
        exact ⟨_, by rw [if_neg h1, if_neg h2, if_pos h3]⟩

/-- C7, the accepted reversed range: with `fromNybble = 5` and `toNybble = 3`
none of the three guards fires, the loop body never runs and the call
returns the one-element list of the input address instead of an error. -/
theorem GetAdjacentNetworkAddressesFromIP_reversed_range :
    GetAdjacentNetworkAddressesFromIP [0, 0, 0, 0, 0, 0, 0, 0, 0, 0, 0, 0, 0, 0, 0, 1] 5 3
      = .ok [[0, 0, 0, 0, 0, 0, 0, 0, 0, 0, 0, 0, 0, 0, 0, 1]] :=
  GetAdjacent_eq [0, 0, 0, 0, 0, 0, 0, 0, 0, 0, 0, 0, 0, 0, 0, 1] 5 3 (by decide) (by decide)
    (by decide)

/-! ## Unique addresses -/

theorem GetUniqueIPs_loop_eq {κ : Type} [DecidableEq κ] (key : IP → κ) (updateFreq : Int)
    (hu : updateFreq ≠ 0) (l : List IP) :
    ∀ (i : Nat) (checkMap : List κ) (toReturn : List IP),
      GetUniqueIPs.loop key updateFreq l i checkMap toReturn
        = .ok (toReturn ++ keepNew key checkMap l) := by
  induction l with
  | nil => intro i checkMap toReturn; simp [GetUniqueIPs.loop, keepNew]
  | cons ip rest ih =>
    intro i checkMap toReturn
    unfold GetUniqueIPs.loop keepNew
    rw [if_neg hu]
    by_cases h : key ip ∈ checkMap
    · rw [if_pos h, if_pos h, ih]
    · rw [if_neg h, if_neg h, ih, List.append_assoc, List.singleton_append]

theorem mem_keepNew {κ : Type} [DecidableEq κ] (key : IP → κ) (l : List IP)
    (hkey : ∀ x ∈ l, ∀ y ∈ l, key x = key y → x = y) :
    ∀ (seen : List κ) (y : IP), y ∈ keepNew key seen l ↔ y ∈ l ∧ key y ∉ seen := by
  induction l with
  | nil => intro seen y; simp [keepNew]
  | cons ip rest ih =>
    intro seen y
    have hrest : ∀ x ∈ rest, ∀ y ∈ rest, key x = key y → x = y :=
      fun x hx y hy => hkey x (List.mem_cons_of_mem _ hx) y (List.mem_cons_of_mem _ hy)
    unfold keepNew
    by_cases h : key ip ∈ seen
    · rw [if_pos h, ih hrest, List.mem_cons]
      constructor
      · rintro ⟨h1, h2⟩
        exact ⟨Or.inr h1, h2⟩
      · rintro ⟨h1 | h1, h2⟩
        · rw [h1] at h2
          exact absurd h h2
        · exact ⟨h1, h2⟩
    · rw [if_neg h, List.mem_cons, ih hrest, List.mem_cons, List.mem_cons]
      constructor
      · rintro (h1 | ⟨h1, h2⟩)
        · rw [h1]
          exact ⟨Or.inl rfl, h⟩
        · exact ⟨Or.inr h1, fun h3 => h2 (Or.inr h3)⟩
      · rintro ⟨h1 | h1, h2⟩
        · exact Or.inl h1
        · by_cases h3 : y = ip
          · exact Or.inl h3
          · refine Or.inr ⟨h1, ?_⟩
            rintro (h4 | h4)
            · exact h3 (hkey y (List.mem_cons_of_mem _ h1) ip (List.mem_cons_self _ _) h4)
            · exact h2 h4

theorem keepNew_nodup {κ : Type} [DecidableEq κ] (key : IP → κ) (l : List IP)
    (hkey : ∀ x ∈ l, ∀ y ∈ l, key x = key y → x = y) :
    ∀ seen : List κ, (keepNew key seen l).Nodup := by
  induction l with
  | nil => intro seen; simp [keepNew]
  | cons ip rest ih =>
    intro seen
    have hrest : ∀ x ∈ rest, ∀ y ∈ rest, key x = key y → x = y :=
      fun x hx y hy => hkey x (List.mem_cons_of_mem _ hx) y (List.mem_cons_of_mem _ hy)
    unfold keepNew
    by_cases h : key ip ∈ seen
    · rw [if_pos h]
      exact ih hrest seen
    · rw [if_neg h, List.nodup_cons]
      refine ⟨?_, ih hrest _⟩
      intro hmem
      exact ((mem_keepNew key rest hrest _ ip).mp hmem).2 (List.mem_cons_self _ _)

theorem keepNew_sublist {κ : Type} [DecidableEq κ] (key : IP → κ) (l : List IP) :
    ∀ seen : List κ, (keepNew key seen l).Sublist l := by
  induction l with
  | nil => intro seen; simp [keepNew]
  | cons ip rest ih =>
    intro seen
    unfold keepNew
    by_cases h : key ip ∈ seen
    · rw [if_pos h]
      exact List.Sublist.cons _ (ih seen)
    · rw [if_neg h]
      exact List.Sublist.cons₂ _ (ih _)

theorem firstIndex_cons_self (x : IP) (l : List IP) : firstIndex x (x :: l) = 0 := by
  simp [firstIndex, List.findIdx_cons]

theorem firstIndex_cons_ne (x z : IP) (l : List IP) (h : z ≠ x) :
    firstIndex x (z :: l) = firstIndex x l + 1 := by
  simp [firstIndex, List.findIdx_cons, h]

theorem keepNew_order {κ : Type} [DecidableEq κ] (key : IP → κ) (l : List IP)
    (hkey : ∀ x ∈ l, ∀ y ∈ l, key x = key y → x = y) :
    ∀ (seen : List κ) (u v : IP), u ∈ l → v ∈ l → key u ∉ seen → key v ∉ seen →
      (firstIndex u (keepNew key seen l) < firstIndex v (keepNew key seen l)
        ↔ firstIndex u l < firstIndex v l) := by
  induction l with
  | nil => intro seen u v hu; simp at hu
  | cons ip rest ih =>
    intro seen u v hu hv hus hvs
    have hrest : ∀ x ∈ rest, ∀ y ∈ rest, key x = key y → x = y :=
      fun x hx y hy => hkey x (List.mem_cons_of_mem _ hx) y (List.mem_cons_of_mem _ hy)
    unfold keepNew
    by_cases h : key ip ∈ seen
    · have hne : ∀ w, key w ∉ seen → ip ≠ w := by
        intro w hw hEq
        rw [hEq] at h
        exact hw h
      have hur : u ∈ rest := (List.mem_cons.mp hu).resolve_left (fun e => hne u hus e.symm)
      have hvr : v ∈ rest := (List.mem_cons.mp hv).resolve_left (fun e => hne v hvs e.symm)
      rw [if_pos h, firstIndex_cons_ne u ip rest (hne u hus),
        firstIndex_cons_ne v ip rest (hne v hvs), ih hrest seen u v hur hvr hus hvs]
      omega
    · rw [if_neg h]
      by_cases hu0 : ip = u
      · subst hu0
        rw [firstIndex_cons_self, firstIndex_cons_self]
        by_cases hv0 : ip = v
        · subst hv0
          rw [firstIndex_cons_self, firstIndex_cons_self]
        · rw [firstIndex_cons_ne v ip _ hv0, firstIndex_cons_ne v ip _ hv0]
          omega
      · by_cases hv0 : ip = v
        · subst hv0
          rw [firstIndex_cons_self, firstIndex_cons_self]
          omega
        · have hur : u ∈ rest := (List.mem_cons.mp hu).resolve_left (fun e => hu0 e.symm)
          have hvr : v ∈ rest := (List.mem_cons.mp hv).resolve_left (fun e => hv0 e.symm)
          have hus' : key u ∉ key ip :: seen := by
            intro e
            rcases List.mem_cons.mp e with e | e
            · exact hu0 (hkey u hu ip (List.mem_cons_self _ _) e).symm
            · exact hus e
          have hvs' : key v ∉ key ip :: seen := by
            intro e
            rcases List.mem_cons.mp e with e | e
            · exact hv0 (hkey v hv ip (List.mem_cons_self _ _) e).symm
            · exact hvs e
          have hih := ih hrest _ u v hur hvr hus' hvs'
          rw [firstIndex_cons_ne u ip _ hu0, firstIndex_cons_ne v ip _ hv0,
            firstIndex_cons_ne u ip _ hu0, firstIndex_cons_ne v ip _ hv0]
          omega

theorem keepNew_keeps_first {κ : Type} [DecidableEq κ] (key : IP → κ) (l : List IP)
    (hkey : ∀ x ∈ l, ∀ y ∈ l, key x = key y → x = y) :
    KeepsFirstOccurrences (keepNew key [] l) l := by
  refine ⟨keepNew_nodup key l hkey [], ?_, keepNew_sublist key l [], ?_⟩
  · intro x
    rw [mem_keepNew key l hkey]
    simp
  · intro x hx y hy
    exact keepNew_order key l hkey [] x y hx hy (List.not_mem_nil _) (List.not_mem_nil _)

theorem GetUniqueIPs_eq {κ : Type} [DecidableEq κ] (key : IP → κ) (L : List IP)
    (updateFreq : Int) (hu : updateFreq ≠ 0) :
    GetUniqueIPs key L updateFreq = .ok (keepNew key [] L) := by
  unfold GetUniqueIPs
  rw [GetUniqueIPs_loop_eq key updateFreq hu L 0 [] [], List.nil_append]

/-- C9: for a list of 16-byte addresses and a non-zero `updateFreq`,
`GetUniqueIPs` returns a list without repetition, with the same addresses as
the input, that is a subsequence of the input in which the addresses come in
the order of their first occurrences. The keys `ip.String()` of the map are
taken to be distinct for distinct 16-byte addresses. -/
theorem GetUniqueIPs_keeps_first {κ : Type} [DecidableEq κ] (key : IP → κ) (L : List IP)
    (updateFreq : Int)
    (hkey : ∀ x y, IsAddr x → IsAddr y → key x = key y → x = y)
    (hL : ∀ x ∈ L, IsAddr x) (hu : updateFreq ≠ 0) :
    ∃ r, GetUniqueIPs key L updateFreq = .ok r ∧ KeepsFirstOccurrences r L :=
  ⟨keepNew key [] L, GetUniqueIPs_eq key L updateFreq hu,
    keepNew_keeps_first key L (fun x hx y hy => hkey x y (hL x hx) (hL y hy))⟩

theorem IPs_loop_eq (f t : Nat) (hft : f ≠ t) (ht : t ≤ 32) (A : List IP) :
    (∀ a ∈ A, IsAddr a) → ∀ acc : List IP,
      GetAdjacentNetworkAddressesFromIPs.loop (f : Int) (t : Int) A acc
        = .ok (acc ++ (A.map (fun a => a :: variants a f t)).flatten) := by
  induction A with
  | nil => intro _ acc; simp [GetAdjacentNetworkAddressesFromIPs.loop]
  | cons a rest ih =>
    intro hA acc
    unfold GetAdjacentNetworkAddressesFromIPs.loop
    rw [GetAdjacent_eq a f t (hA a (List.mem_cons_self _ _)) hft ht, ok_bind,
      ih (fun b hb => hA b (List.mem_cons_of_mem _ hb)), List.map_cons, List.flatten_cons,
      List.append_assoc]

theorem forall2_map_adjacent (f t : Nat) (hft : f ≠ t) (ht : t ≤ 32) (A : List IP) :
    (∀ a ∈ A, IsAddr a) →
      List.Forall₂ (fun a l => GetAdjacentNetworkAddressesFromIP a (f : Int) (t : Int) = .ok l)
        A (A.map (fun a => a :: variants a f t)) := by
  induction A with
  | nil => intro _; exact List.Forall₂.nil
  | cons a rest ih =>
    intro hA
    rw [List.map_cons]
    exact List.Forall₂.cons (GetAdjacent_eq a f t (hA a (List.mem_cons_self _ _)) hft ht)
      (ih (fun b hb => hA b (List.mem_cons_of_mem _ hb)))

theorem mem_concat_variants (f t : Nat) (A : List IP) (x : IP) :
    x ∈ (A.map (fun a => a :: variants a f t)).flatten
      ↔ x ∈ A ∨ ∃ a ∈ A, x ∈ variants a f t := by
  rw [List.mem_flatten]
  constructor
  · rintro ⟨l, hl, hx⟩
    obtain ⟨a, ha, rfl⟩ := List.mem_map.mp hl
    rcases List.mem_cons.mp hx with h | h
    · exact Or.inl (h ▸ ha)
    · exact Or.inr ⟨a, ha, h⟩
  · rintro (h | ⟨a, ha, h⟩)
    · exact ⟨x :: variants x f t, List.mem_map.mpr ⟨x, h, rfl⟩, List.mem_cons_self _ _⟩
    · exact ⟨a :: variants a f t, List.mem_map.mpr ⟨a, ha, rfl⟩, List.mem_cons_of_mem _ h⟩

/-- C8: for a list `A` of 16-byte addresses, `0 ≤ f < t ≤ 32` and a non-zero
`LogLoopEmitFreq`, the fan-out over `A` succeeds with a list without
repetition whose addresses are exactly those of `A` and those obtained from
an `a` of `A` by replacing one nybble `i` of `[f, t)` by another value `v`,
and which keeps the first occurrences of the concatenation of the
per-address results, taken in the order of `A`. The keys `ip.String()` of
the map are taken to be distinct for distinct 16-byte addresses. -/
theorem GetAdjacentNetworkAddressesFromIPs_spec {κ : Type} [DecidableEq κ] (key : IP → κ)
    (logLoopEmitFreq : Int) (A : List IP) (f t : Int)
    (hkey : ∀ x y, IsAddr x → IsAddr y → key x = key y → x = y)
    (hA : ∀ a ∈ A, IsAddr a) (hf : 0 ≤ f) (hft : f < t) (ht : t ≤ 32)
    (hfreq : logLoopEmitFreq ≠ 0) :
    ∃ r, GetAdjacentNetworkAddressesFromIPs key logLoopEmitFreq A f t = .ok r ∧ r.Nodup ∧
      (∀ x, x ∈ r ↔ x ∈ A ∨ ∃ a ∈ A, ∃ i v : Nat, f ≤ (i : Int) ∧ (i : Int) < t ∧ v < 16 ∧
        v ≠ nybbleAt a i ∧ x = setNybble a i v) ∧
      ∃ ls, List.Forall₂ (fun a l => GetAdjacentNetworkAddressesFromIP a f t = .ok l) A ls ∧
        KeepsFirstOccurrences r ls.flatten := by
  obtain ⟨fn, rfl⟩ := Int.eq_ofNat_of_zero_le hf
  obtain ⟨tn, rfl⟩ := Int.eq_ofNat_of_zero_le (Int.le_trans hf (Int.le_of_lt hft))
  have hft' : fn ≠ tn := by omega
  have ht' : tn ≤ 32 := by omega
  have hall : ∀ x ∈ (A.map (fun a => a :: variants a fn tn)).flatten, IsAddr x := by
    intro x hx
    rcases (mem_concat_variants fn tn A x).mp hx with h | ⟨a, ha, h⟩
    · exact hA x h
    · obtain ⟨i, hi, hxi⟩ := (mem_variants a fn tn x).mp h
      exact (differs_of_mem_variantsAt a (hA a ha) i (by omega) x hxi).1
  have hkeep := keepNew_keeps_first key _
    (fun x hx y hy => hkey x y (hall x hx) (hall y hy))
  refine ⟨keepNew key [] (A.map (fun a => a :: variants a fn tn)).flatten, ?_, hkeep.1, ?_,
    _, forall2_map_adjacent fn tn hft' ht' A hA, hkeep⟩
  · unfold GetAdjacentNetworkAddressesFromIPs
    rw [IPs_loop_eq fn tn hft' ht' A hA [], ok_bind, List.nil_append,
      GetUniqueIPs_eq key _ logLoopEmitFreq hfreq]
  · intro x
    rw [hkeep.2.1 x, mem_concat_variants]
    apply or_congr Iff.rfl
    constructor
    · rintro ⟨a, ha, h⟩
      obtain ⟨i, hi, hxi⟩ := (mem_variants a fn tn x).mp h
      obtain ⟨v, hv, hne, rfl⟩ := (mem_variantsAt a i x).mp hxi
      exact ⟨a, ha, i, v, by omega, by omega, hv, fun e => hne e.symm, rfl⟩
    · rintro ⟨a, ha, i, v, hi1, hi2, hv, hne, rfl⟩
      refine ⟨a, ha, (mem_variants a fn tn _).mpr ⟨i, by omega, ?_⟩⟩
      exact (mem_variantsAt a i _).mpr ⟨v, hv, fun e => hne e.symm, rfl⟩

/-! ## Binary files -/

theorem foldl_append_flatten (l : List IP) :
    ∀ init : List Nat, l.foldl (fun buf addr => buf ++ addr) init = init ++ l.flatten := by
  induction l with
  | nil => intro init; simp
  | cons x xs ih => intro init; rw [List.foldl_cons, ih, List.flatten_cons, List.append_assoc]

theorem WriteIPsToBinaryFile_fresh (L : List IP) : WriteIPsToBinaryFile none L = L.flatten := by
  unfold WriteIPsToBinaryFile
  simp only []
  rw [foldl_append_flatten, List.nil_append]

theorem length_flatten_sixteen (L : List IP) (hL : ∀ a ∈ L, a.length = 16) :
    L.flatten.length = 16 * L.length := by
  induction L with
  | nil => rfl
  | cons x xs ih =>
    rw [List.flatten_cons, List.length_append, hL x (List.mem_cons_self _ _),
      ih (fun a ha => hL a (List.mem_cons_of_mem _ ha)), List.length_cons]
    omega

theorem read_loop_step (fuel : Nat) (b : Nat) (unread buffer : List Nat) (acc : List IP) :
    ReadIPsFromBinaryFile.loop (fuel + 1) (b :: unread) buffer acc
      = ReadIPsFromBinaryFile.loop fuel
          ((b :: unread).drop (goCopy buffer ((b :: unread).take buffer.length)).length)
          (goCopy buffer ((b :: unread).take buffer.length))
          (acc ++ [goCopy (List.replicate 16 0)
            (goCopy buffer ((b :: unread).take buffer.length))]) := by
  rw [ReadIPsFromBinaryFile.loop]

theorem read_loop_ok (L : List IP) :
    (∀ a ∈ L, a.length = 16) → ∀ (fuel : Nat) (buffer : List Nat) (acc : List IP),
      L.length < fuel → buffer.length = 16 →
      ReadIPsFromBinaryFile.loop fuel L.flatten buffer acc = .ok (acc ++ L) := by
  induction L with
  | nil =>
    intro _ fuel buffer acc hfuel _
    obtain ⟨n, rfl⟩ : ∃ n, fuel = n + 1 := ⟨fuel - 1, by simp at hfuel; omega⟩
    simp [ReadIPsFromBinaryFile.loop]
  | cons x xs ih =>
    intro hL fuel buffer acc hfuel hbuf
    obtain ⟨n, rfl⟩ : ∃ n, fuel = n + 1 := ⟨fuel - 1, by simp at hfuel; omega⟩
    have hx : x.length = 16 := hL x (List.mem_cons_self _ _)
    have htake : (x ++ xs.flatten).take buffer.length = x := by
      rw [hbuf, ← hx, List.take_left']
      rfl
    have hcopy : goCopy buffer x = x := goCopy_same_length buffer x (by rw [hbuf, hx])
    have hcopy2 : goCopy (List.replicate 16 0) x = x :=
      goCopy_same_length _ x (by rw [List.length_replicate, hx])
    have hdrop : (x ++ xs.flatten).drop x.length = xs.flatten := by
      rw [List.drop_left']
      rfl
    obtain ⟨b, x', hbx⟩ : ∃ b x', x = b :: x' := by
      match x, hx with
      | b :: x', _ => exact ⟨b, x', rfl⟩
    have hstep := read_loop_step n b (x' ++ xs.flatten) buffer acc
    rw [← List.cons_append, ← hbx, htake, hcopy, hcopy2, hdrop] at hstep
    rw [List.flatten_cons, hstep,
      ih (fun a ha => hL a (List.mem_cons_of_mem _ ha)) n x _
        (by simp at hfuel; omega) hx,
      List.append_assoc, List.singleton_append]

/-- C10: for a list of 16-byte addresses, `WriteIPsToBinaryFile` on a path with
no file leaves a file whose bytes are the concatenation of the addresses, and
`ReadIPsFromBinaryFile` on that file succeeds with the same list. -/
theorem binary_file_roundtrip (L : List IP) (hL : ∀ a ∈ L, IsAddr a) :
    WriteIPsToBinaryFile none L = L.flatten ∧
    ReadIPsFromBinaryFile (WriteIPsToBinaryFile none L) = .ok L := by
  have hlen : ∀ a ∈ L, a.length = 16 := fun a ha => (hL a ha).1
  refine ⟨WriteIPsToBinaryFile_fresh L, ?_⟩
  rw [WriteIPsToBinaryFile_fresh]
  unfold ReadIPsFromBinaryFile
  have h16 : ¬ (L.flatten.length % 16 ≠ 0) := by
    rw [length_flatten_sixteen L hlen]
    omega
  rw [if_neg h16, read_loop_ok L hlen _ _ [] (by rw [length_flatten_sixteen L hlen]; omega)
    (List.length_replicate _ _), List.nil_append]

/-! ## The theorems at concrete addresses -/

theorem nybbles_roundtrip_witness :
    IsAddr docAddr ∧ (GetNybblesFromIP docAddr 32).map NybblesToIP = .ok docAddr :=
  ⟨by decide, nybbles_roundtrip docAddr (by decide)⟩

theorem FlipBitsInAddress_bits_witness :
    IsAddr docAddr ∧ 13 ≤ 23 ∧ 23 ≤ 127 ∧
      ∃ r, FlipBitsInAddress docAddr 13 23 = .ok r ∧ IsAddr r ∧
        ∀ i, i < 128 → bitAt r i = if 13 ≤ i ∧ i ≤ 23 then !bitAt docAddr i else bitAt docAddr i :=
  ⟨by decide, by decide, by decide,
    FlipBitsInAddress_bits docAddr 13 23 (by decide) (by decide) (by decide)⟩

theorem FlipBitsInAddress_involution_witness :
    IsAddr docAddr ∧ 120 ≤ 127 ∧ 127 ≤ 127 ∧
      (FlipBitsInAddress docAddr 120 127 >>= fun r => FlipBitsInAddress r 120 127) = .ok docAddr :=
  ⟨by decide, by decide, by decide,
    FlipBitsInAddress_involution docAddr 120 127 (by decide) (by decide) (by decide)⟩

theorem halves_roundtrip_witness :
    IsAddr docAddr ∧ 0x20010db800000000 < 2 ^ 64 ∧ 1 < 2 ^ 64 ∧
      (UintsToAddress (AddressToUints docAddr).1 (AddressToUints docAddr).2 = docAddr ∧
      AddressToUints (UintsToAddress 0x20010db800000000 1) = (0x20010db800000000, 1) ∧
      IsAddr (UintsToAddress 0x20010db800000000 1) ∧
      ∀ k, k < 8 →
        (UintsToAddress 0x20010db800000000 1).getD k 0
          = 0x20010db800000000 / 2 ^ (8 * (7 - k)) % 256 ∧
        (UintsToAddress 0x20010db800000000 1).getD (8 + k) 0 = 1 / 2 ^ (8 * (7 - k)) % 256) :=
  ⟨by decide, by decide, by decide,
    halves_roundtrip docAddr 0x20010db800000000 1 (by decide) (by decide) (by decide)⟩

theorem GetAdjacentNetworkAddressesFromIP_sound_witness :
    IsAddr loopback ∧ (0 : Int) ≤ 31 ∧ (31 : Int) < 32 ∧ (32 : Int) ≤ 32 ∧
      ∃ r, GetAdjacentNetworkAddressesFromIP loopback 31 32 = .ok r ∧ loopback ∈ r ∧
        (r.length : Int) ≤ 1 + 15 * (32 - 31) ∧
        ∀ x ∈ r, x ≠ loopback → IsAddr x ∧ ∃ i : Nat, (31 : Int) ≤ (i : Int) ∧ (i : Int) < 32 ∧
          nybbleAt x i ≠ nybbleAt loopback i ∧
          ∀ k, k < 32 → k ≠ i → nybbleAt x k = nybbleAt loopback k :=
  ⟨by decide, by decide, by decide, by decide,
    GetAdjacentNetworkAddressesFromIP_sound loopback 31 32 (by decide) (by decide) (by decide)
      (by decide)⟩

theorem GetAdjacentNetworkAddressesFromIP_complete_witness :
    IsAddr loopback ∧ (0 : Int) ≤ 31 ∧ (31 : Int) < 32 ∧ (32 : Int) ≤ 32 ∧
      ∃ r, GetAdjacentNetworkAddressesFromIP loopback 31 32 = .ok r ∧ r.Nodup ∧
        (r.length : Int) = 1 + 15 * (32 - 31) ∧
        ∀ x, IsAddr x →
          (∃ i : Nat, (31 : Int) ≤ (i : Int) ∧ (i : Int) < 32 ∧
            nybbleAt x i ≠ nybbleAt loopback i ∧
            ∀ k, k < 32 → k ≠ i → nybbleAt x k = nybbleAt loopback k) →
          r.countP (fun y => decide (y = x)) = 1 :=
  ⟨by decide, by decide, by decide, by decide,
    GetAdjacentNetworkAddressesFromIP_complete loopback 31 32 (by decide) (by decide)
      (by decide) (by decide)⟩

theorem GetUniqueIPs_keeps_first_witness :
    (∀ x y : IP, IsAddr x → IsAddr y → id x = id y → x = y) ∧
    (∀ x ∈ [loopback, docAddr, loopback], IsAddr x) ∧ (1000 : Int) ≠ 0 ∧
      ∃ r, GetUniqueIPs id [loopback, docAddr, loopback] 1000 = .ok r ∧
        KeepsFirstOccurrences r [loopback, docAddr, loopback] :=
  ⟨fun _ _ _ _ h => h, by decide, by decide,
    GetUniqueIPs_keeps_first id [loopback, docAddr, loopback] 1000 (fun _ _ _ _ h => h)
      (by decide) (by decide)⟩

theorem GetAdjacentNetworkAddressesFromIPs_spec_witness :
    (∀ x y : IP, IsAddr x → IsAddr y → id x = id y → x = y) ∧
    (∀ a ∈ [loopback, docAddr], IsAddr a) ∧ (0 : Int) ≤ 30 ∧ (30 : Int) < 32 ∧
    (32 : Int) ≤ 32 ∧ (1000 : Int) ≠ 0 ∧
      ∃ r, GetAdjacentNetworkAddressesFromIPs id 1000 [loopback, docAddr] 30 32 = .ok r ∧
        r.Nodup ∧
        (∀ x, x ∈ r ↔ x ∈ [loopback, docAddr] ∨ ∃ a ∈ [loopback, docAddr], ∃ i v : Nat,
          (30 : Int) ≤ (i : Int) ∧ (i : Int) < 32 ∧ v < 16 ∧ v ≠ nybbleAt a i ∧
          x = setNybble a i v) ∧
        ∃ ls, List.Forall₂
            (fun a l => GetAdjacentNetworkAddressesFromIP a 30 32 = .ok l) [loopback, docAddr] ls ∧
          KeepsFirstOccurrences r ls.flatten :=
  ⟨fun _ _ _ _ h => h, by decide, by decide, by decide, by decide, by decide,
    GetAdjacentNetworkAddressesFromIPs_spec id 1000 [loopback, docAddr] 30 32
      (fun _ _ _ _ h => h) (by decide) (by decide) (by decide) (by decide) (by decide)⟩

theorem binary_file_roundtrip_witness :
    (∀ a ∈ [loopback, docAddr], IsAddr a) ∧
      (WriteIPsToBinaryFile none [loopback, docAddr] = [loopback, docAddr].flatten ∧
      ReadIPsFromBinaryFile (WriteIPsToBinaryFile none [loopback, docAddr])
        = .ok [loopback, docAddr]) :=
  ⟨by decide, binary_file_roundtrip [loopback, docAddr] (by decide)⟩

/-! ## Pipeline driver -/

theorem wrapInt8_small (x : Int) (h0 : -128 ≤ x) (h1 : x ≤ 127) : wrapInt8 x = x := by
  unfold wrapInt8
  omega

theorem fetchStateFromFile_single (b : Nat) :
    fetchStateFromFile (some [b]) none
      = if b ≤ 8 then ((b : Int), none) else (-1, some .unexpectedState) := by
  have hlen : ¬ (([b] : List Nat).length = 0 ∨ ([b] : List Nat).length > 1) := by simp
  unfold fetchStateFromFile
  simp only [readFile]
  rw [if_neg hlen]
  simp only [List.getD_cons_zero, FIRST_STATE, LAST_STATE]
  by_cases hb : b ≤ 8
  · have h1 : ¬ ((b : Int) < 0 ∨ (b : Int) > 8) := by omega
    rw [if_neg h1, if_pos hb, wrapInt8_small _ (by omega) (by omega)]
  · have h1 : (b : Int) < 0 ∨ (b : Int) > 8 := by omega
    rw [if_pos h1, if_neg hb]

theorem fetchStateFromFile_length (content : List Nat) (h : content.length ≠ 1) :
    fetchStateFromFile (some content) none = (-1, some .unexpectedLength) := by
  have hlen : content.length = 0 ∨ content.length > 1 := by omega
  unfold fetchStateFromFile
  simp only [readFile]
  rw [if_pos hlen]

/-- C11: on a readable state file `fetchStateFromFile` returns no error exactly
when the content is one byte of value 0..8, and then returns that value; for
every other content (empty, longer than one byte, one byte above 8) it returns
an error together with the state -1. -/
theorem fetchStateFromFile_spec (content : List Nat) :
    ((fetchStateFromFile (some content) none).2 = none ↔ ∃ b, content = [b] ∧ b ≤ 8) ∧
    (∀ b, content = [b] ∧ b ≤ 8 →
      fetchStateFromFile (some content) none = ((b : Int), none)) ∧
    ((¬ ∃ b, content = [b] ∧ b ≤ 8) →
      (fetchStateFromFile (some content) none).1 = -1 ∧
      (fetchStateFromFile (some content) none).2 ≠ none) := by
  match content with
  | [] =>
    rw [fetchStateFromFile_length [] (by simp)]
    simp
  | [b] =>
    rw [fetchStateFromFile_single b]
    by_cases hb : b ≤ 8
    · simp [hb]
    · simp [hb]
      omega
  | b :: c :: rest =>
    rw [fetchStateFromFile_length (b :: c :: rest) (by simp)]
    simp

/-- C12: for every state `s` in 0..8, `SetStateFile` (its write succeeding)
leaves a state file from which `fetchStateFromFile` returns `s` and no error,
whatever the file held before. -/
theorem state_file_roundtrip (file : Option (List Nat)) (s : Int) (h0 : 0 ≤ s) (h8 : s ≤ 8) :
    (SetStateFile file none s).2 = none ∧
    fetchStateFromFile (SetStateFile file none s).1 none = (s, none) := by
  obtain ⟨n, rfl⟩ := Int.eq_ofNat_of_zero_le h0
  have hn : n ≤ 8 := by omega
  have hb : (((n : Int) % 256).toNat) = n := by omega
  refine ⟨rfl, ?_⟩
  simp only [SetStateFile, List.nil_append]
  rw [hb, fetchStateFromFile_single n, if_pos hn]

theorem next_state (m : Nat) (hm : m ≤ 8) :
    Int.tmod (wrapInt8 ((m : Int) + 1)) (wrapInt8 (LAST_STATE + 1)) = (((m + 1) % 9 : Nat) : Int) := by
  have h9 : wrapInt8 (LAST_STATE + 1) = 9 := by decide
  rw [h9, wrapInt8_small _ (by omega) (by omega), Int.tmod_eq_emod (by omega) (by decide)]
  omega

theorem timerFound_small (m : Nat) (hm : m ≤ 8) : timerFound (m : Int) = true := by
  unfold timerFound FIRST_STATE LAST_STATE
  rw [decide_eq_true_eq]
  omega

theorem iteration_ok (env : Env) (n m : Nat) (file : Option (List Nat))
    (calls : List (Int × Option Stage)) (hm : m ≤ 8)
    (hstage : ∀ st, env.stage n st = none) (hwrite : env.write n = none) :
    RunStateMachine.iteration env n ⟨(m : Int), file, calls⟩
      = .running ⟨(((m + 1) % 9 : Nat) : Int), some [(m + 1) % 9],
          calls ++ [((m : Int), stageOf env.cleanUpEnabled (m : Int))]⟩ := by
  have hbind : (stageOf env.cleanUpEnabled (m : Int)).bind (env.stage n) = none := by
    cases stageOf env.cleanUpEnabled (m : Int) with
    | none => rfl
    | some st => exact hstage st
  have hbyte : ((((m + 1) % 9 : Nat) : Int) % 256).toNat = (m + 1) % 9 := by omega
  unfold RunStateMachine.iteration
  simp only [hbind, timerFound_small m hm, next_state m hm, hwrite, SetStateFile, hbyte,
    List.nil_append, Bool.not_true, Bool.false_eq_true, if_false]

theorem iteration_stage_error (env : Env) (n : Nat) (d : Driver) (st : Stage) (e : GoErr)
    (hcall : stageOf env.cleanUpEnabled d.state = some st) (herr : env.stage n st = some e) :
    RunStateMachine.iteration env n d
      = .returned e { d with calls := d.calls ++ [(d.state, some st)] } := by
  unfold RunStateMachine.iteration
  simp only [hcall, Option.bind, herr]

theorem map_callAt_succ (c : Bool) (m n : Nat) (hm : m ≤ 8) :
    (List.range (n + 1)).map (callAt c m)
      = ((m : Int), stageOf c (m : Int)) :: (List.range n).map (callAt c ((m + 1) % 9)) := by
  have h0 : m % 9 = m := Nat.mod_eq_of_lt (by omega)
  rw [List.range_succ_eq_map, List.map_cons, List.map_map]
  congr 1
  · simp only [callAt, Nat.add_zero, h0]
  · apply List.map_congr_left
    intro k _
    have hk : ((m + 1) % 9 + k) % 9 = (m + (k + 1)) % 9 := by omega
    simp only [callAt, Function.comp, Nat.succ_eq_add_one, hk]

theorem loop_prefix (env : Env) (n : Nat) :
    ∀ (r k m : Nat) (calls : List (Int × Option Stage)), m ≤ 8 →
      (∀ j st, j < n → env.stage (k + j) st = none) →
      (∀ j, j < n → env.write (k + j) = none) →
      RunStateMachine.loop env (n + r) k ⟨(m : Int), some [m], calls⟩
        = RunStateMachine.loop env r (k + n)
            ⟨(((m + n) % 9 : Nat) : Int), some [(m + n) % 9],
              calls ++ (List.range n).map (callAt env.cleanUpEnabled m)⟩ := by
  induction n with
  | zero =>
    intro r k m calls hm _ _
    have h0 : m % 9 = m := Nat.mod_eq_of_lt (by omega)
    simp [h0]
  | succ n ih =>
    intro r k m calls hm hstage hwrite
    have hfuel : n + 1 + r = (n + r) + 1 := by omega
    rw [hfuel, RunStateMachine.loop,
      iteration_ok env k m _ calls hm (fun st => hstage 0 st (by omega))
        (hwrite 0 (by omega))]
    simp only []
    rw [ih r (k + 1) ((m + 1) % 9) _ (by omega)
      (fun j st hj => by
        have := hstage (j + 1) st (by omega)
        rwa [show k + (j + 1) = k + 1 + j by omega] at this)
      (fun j hj => by
        have := hwrite (j + 1) (by omega)
        rwa [show k + (j + 1) = k + 1 + j by omega] at this)]
    have e1 : ((m + 1) % 9 + n) % 9 = (m + (n + 1)) % 9 := by omega
    have e2 : k + 1 + n = k + (n + 1) := by omega
    rw [e1, e2, map_callAt_succ env.cleanUpEnabled m n hm, List.append_assoc,
      List.singleton_append]

theorem RunStateMachine_start (env : Env) (s fuel : Nat) (hs : s ≤ 8) :
    RunStateMachine env (some [s]) none fuel
      = RunStateMachine.loop env fuel 0 ⟨(s : Int), some [s], []⟩ := by
  unfold RunStateMachine
  simp only [fetchStateFromFile_single s, if_pos hs]

theorem RunStateMachine_running (env : Env) (s n : Nat) (hs : s ≤ 8)
    (hstage : ∀ k st, k < n → env.stage k st = none)
    (hwrite : ∀ k, k < n → env.write k = none) :
    RunStateMachine env (some [s]) none n
      = .running ⟨(((s + n) % 9 : Nat) : Int), some [(s + n) % 9],
          (List.range n).map (callAt env.cleanUpEnabled s)⟩ := by
  have h := loop_prefix env n 0 0 s [] hs
    (fun j st hj => by rw [Nat.zero_add]; exact hstage j st hj)
    (fun j hj => by rw [Nat.zero_add]; exact hwrite j hj)
  rw [RunStateMachine_start env s n hs]
  rw [Nat.add_zero] at h
  rw [h, RunStateMachine.loop, List.nil_append]

/-- C13: started on a state file holding `s` in 0..8, and as long as the stage
calls and the writes of the state file succeed, the driver is still running
after `n + 1` iterations; the `k`-th iteration entered state `(s + k) mod 9`
and called the stage function of that state, so every state entered lies in
0..8, and after the `n`-th one the variable and the state file hold
`(s + n + 1) mod 9`. Started on 2 it calls `postScanCleanup` first and enters
the states 2, 3, ..., 8 in its first seven iterations. -/
theorem RunStateMachine_cycle (env : Env) (s n : Nat) (hs : s ≤ 8)
    (hstage : ∀ k st, k ≤ n → env.stage k st = none)
    (hwrite : ∀ k, k ≤ n → env.write k = none) :
    ∃ d, RunStateMachine env (some [s]) none (n + 1) = .running d ∧
      d.calls = (List.range (n + 1)).map (callAt env.cleanUpEnabled s) ∧
      d.calls.get? n = some ((((s + n) % 9 : Nat) : Int),
        stageOf env.cleanUpEnabled (((s + n) % 9 : Nat) : Int)) ∧
      d.file = some [(s + n + 1) % 9] ∧
      d.state = (((s + n + 1) % 9 : Nat) : Int) ∧
      (∀ c ∈ d.calls, 0 ≤ c.1 ∧ c.1 ≤ 8) ∧
      (s = 2 → 6 ≤ n →
        d.calls.head? = some (2, some Stage.postScanCleanup) ∧
        (d.calls.take 7).map Prod.fst = [2, 3, 4, 5, 6, 7, 8]) := by
  refine ⟨_, RunStateMachine_running env s (n + 1) hs
    (fun k st hk => hstage k st (by omega)) (fun k hk => hwrite k (by omega)),
    rfl, ?_, rfl, rfl, ?_, ?_⟩
  · simp only [List.get?_eq_getElem?, List.getElem?_map,
      List.getElem?_range (Nat.lt_succ_self n), Option.map_some', callAt]
  · intro c hc
    simp only [List.mem_map, List.mem_range] at hc
    obtain ⟨k, _, rfl⟩ := hc
    simp only [callAt]
    omega
  · intro h2 hn
    subst h2
    obtain ⟨r, rfl⟩ : ∃ r, n = 6 + r := ⟨n - 6, by omega⟩
    have h7 : 6 + r + 1 = 7 + r := by omega
    simp only [h7, List.range_add, List.map_append]
    constructor
    · rfl
    · rw [List.take_left' (by simp)]
      rfl

/-- C14: if the stage function called in the current state returns an error,
the iteration returns that error with the variable `state` and the state
file as they were; in a run started on a state file holding `s` in 0..8 whose
first `n` iterations succeed and whose next stage call fails, the driver
returns that error and the state file still holds `(s + n) mod 9`, the state
of the failed stage. -/
theorem RunStateMachine_stage_error (env : Env) (s n fuel : Nat) (st : Stage) (e : GoErr)
    (hs : s ≤ 8)
    (hstage : ∀ k st, k < n → env.stage k st = none)
    (hwrite : ∀ k, k < n → env.write k = none)
    (hcall : stageOf env.cleanUpEnabled (((s + n) % 9 : Nat) : Int) = some st)
    (herr : env.stage n st = some e) (hfuel : n < fuel) :
    (∀ d : Driver, stageOf env.cleanUpEnabled d.state = some st →
      ∃ d', RunStateMachine.iteration env n d = .returned e d' ∧
        d'.file = d.file ∧ d'.state = d.state) ∧
    ∃ d, RunStateMachine env (some [s]) none fuel = .returned e d ∧
      d.file = some [(s + n) % 9] ∧ d.state = (((s + n) % 9 : Nat) : Int) := by
  constructor
  · intro d hd
    exact ⟨_, iteration_stage_error env n d st e hd herr, rfl, rfl⟩
  · obtain ⟨r, rfl⟩ : ∃ r, fuel = n + (r + 1) := ⟨fuel - n - 1, by omega⟩
    have h := loop_prefix env n (r + 1) 0 s [] hs
      (fun j st hj => by rw [Nat.zero_add]; exact hstage j st hj)
      (fun j hj => by rw [Nat.zero_add]; exact hwrite j hj)
    rw [RunStateMachine_start env s _ hs, h, Nat.zero_add, RunStateMachine.loop,
      iteration_stage_error env n _ st e hcall herr]
    exact ⟨_, rfl, rfl, rfl⟩

/-! ## Alias check -/

theorem floatToInt_of_nonneg (outOfRange : Int) (x : ℚ) (hx : 0 ≤ x) (hlt : x < 2 ^ 63) :
    floatToInt outOfRange x = ⌊x⌋ := by
  have htrunc : Int.tdiv x.num (x.den : Int) = ⌊x⌋ := by
    rw [Rat.floor_def, Int.tdiv_eq_ediv (Rat.num_nonneg.mpr hx) (by omega)]
  have h0 : 0 ≤ ⌊x⌋ := Int.floor_nonneg.mpr hx
  have h1 : ⌊x⌋ < 2 ^ 63 := Int.floor_lt.mpr (by exact_mod_cast hlt)
  unfold floatToInt
  simp only [htrunc]
  rw [if_pos ⟨by omega, h1⟩]

theorem floatToInt_out_of_range (outOfRange : Int) (x : ℚ) (hx : 2 ^ 63 ≤ x) :
    floatToInt outOfRange x = outOfRange := by
  have hx0 : 0 ≤ x := le_trans (by norm_num) hx
  have htrunc : Int.tdiv x.num (x.den : Int) = ⌊x⌋ := by
    rw [Rat.floor_def, Int.tdiv_eq_ediv (Rat.num_nonneg.mpr hx0) (by omega)]
  have h1 : (2 : Int) ^ 63 ≤ ⌊x⌋ := Int.le_floor.mpr (by exact_mod_cast hx)
  unfold floatToInt
  simp only [htrunc]
  rw [if_neg (fun h => absurd h.2 (by omega))]

/-- C15 as stated fails: with `NetworkPingCount = 10` and
`NetworkBlacklistPercent = 0.25` the product is 2.5, whose ceiling is 3, and
two replies are reported as aliased. -/
theorem checkNetworkForAliased_not_ceil :
    checkNetworkForAliased [loopback] none none (.ok [loopback, docAddr]) ((10 : ℚ) * (1 / 4))
        (-(2 ^ 63))
      = .ok (some loopback, true) ∧
    ¬ (⌈(10 : ℚ) * (1 / 4)⌉ ≤ (([loopback, docAddr] : List IP).length : Int)) := by
  have hp : (0 : ℚ) ≤ (10 : ℚ) * (1 / 4) := by norm_num
  have hlt : (10 : ℚ) * (1 / 4) < 2 ^ 63 := by norm_num
  have hfloor : ⌊(10 : ℚ) * (1 / 4)⌋ = 2 := by
    rw [Int.floor_eq_iff]
    norm_num
  constructor
  · simp only [checkNetworkForAliased, floatToInt_of_nonneg _ _ hp hlt, hfloor]
    rfl
  · rw [Int.ceil_le]
    norm_num

/-- C15, amended: when the writes and the scan succeed, at least one test
address was generated and the product is non-negative and below `2 ^ 63`
(so that its conversion to `int` is the truncation), the network is reported
aliased exactly when the number of replies is at least the floor of the
product. -/
theorem checkNetworkForAliased_threshold (addrs found : List IP) (product : ℚ)
    (outOfRange : Int) (haddrs : addrs ≠ []) (hp : 0 ≤ product) (hlt : product < 2 ^ 63) :
    ∃ ip aliased, checkNetworkForAliased addrs none none (.ok found) product outOfRange
        = .ok (ip, aliased) ∧
      (aliased = true ↔ ⌊product⌋ ≤ (found.length : Int)) := by
  match addrs, haddrs with
  | first :: rest, _ =>
    by_cases h : ⌊product⌋ ≤ (found.length : Int)
    · refine ⟨some first, true, ?_, by simp [h]⟩
      simp only [checkNetworkForAliased, floatToInt_of_nonneg _ _ hp hlt, ge_iff_le, h, if_true]
    · refine ⟨none, false, ?_, by simp [h]⟩
      simp only [checkNetworkForAliased, floatToInt_of_nonneg _ _ hp hlt, ge_iff_le, h,
        if_false]

theorem checkNetworkForAliased_out_of_range (addrs found : List IP) (product : ℚ)
    (outOfRange : Int) (haddrs : addrs ≠ []) (hp : 2 ^ 63 ≤ product) :
    ∃ ip aliased, checkNetworkForAliased addrs none none (.ok found) product outOfRange
        = .ok (ip, aliased) ∧
      (aliased = true ↔ outOfRange ≤ (found.length : Int)) := by
  match addrs, haddrs with
  | first :: rest, _ =>
    by_cases h : outOfRange ≤ (found.length : Int)
    · refine ⟨some first, true, ?_, by simp [h]⟩
      simp only [checkNetworkForAliased, floatToInt_out_of_range _ _ hp, ge_iff_le, h, if_true]
    · refine ⟨none, false, ?_, by simp [h]⟩
      simp only [checkNetworkForAliased, floatToInt_out_of_range _ _ hp, ge_iff_le, h, if_false]

/-! ## Nybbles: indices out of range and short lists -/

theorem index_neg (xs : List Nat) (i : Int) (hi : i < 0) :
    index xs i = .error .indexOutOfRange := by
  unfold index
  rw [if_pos hi]

theorem index_large (xs : List Nat) (i : Int) (hi : (xs.length : Int) ≤ i) :
    index xs i = .error .indexOutOfRange := by
  have h0 : ¬ (i < 0) := by omega
  have hlen : xs.length ≤ i.toNat := by omega
  unfold index
  rw [if_neg h0, List.get?_eq_getElem?, List.getElem?_eq_none hlen]

theorem tdiv_two_negSucc (n : Nat) : Int.tdiv (Int.negSucc n) 2 = -(((n + 1) / 2 : Nat) : Int) :=
  rfl

theorem GetNybbleFromIP_fails_iff (a : IP) (ha : IsAddr a) (i : Int) :
    (∃ e, GetNybbleFromIP a i = .error e) ↔ (i < -1 ∨ 31 < i) := by
  cases i with
  | ofNat n =>
    by_cases hn : n ≤ 31
    · have hok := GetNybbleFromIP_ofNat a n (by rw [ha.1]; omega)
      constructor
      · rintro ⟨e, he⟩
        rw [Int.ofNat_eq_coe, hok] at he
        exact Except.noConfusion he
      · intro h
        rw [Int.ofNat_eq_coe] at h
        omega
    · constructor
      · intro _
        rw [Int.ofNat_eq_coe]
        omega
      · intro _
        have hdiv : Int.tdiv (Int.ofNat n) 2 = (((n / 2 : Nat)) : Int) := by
          rw [Int.ofNat_eq_coe, Int.tdiv_eq_ediv (by omega) (by decide)]
          omega
        refine ⟨.indexOutOfRange, ?_⟩
        unfold GetNybbleFromIP
        simp only []
        rw [hdiv, index_large a _ (by rw [ha.1]; omega)]
        rfl
  | negSucc n =>
    match n with
    | 0 =>
      have h16 : 0 < a.length := by rw [ha.1]; decide
      have hidx : index a (0 : Int) = .ok (a.getD 0 0) := index_ofNat a 0 h16
      constructor
      · rintro ⟨e, he⟩
        unfold GetNybbleFromIP at he
        simp only [tdiv_two_negSucc] at he
        rw [show (-(((0 + 1) / 2 : Nat) : Int)) = 0 by decide, hidx] at he
        exact Except.noConfusion he
      · intro h
        have : Int.negSucc 0 = -1 := rfl
        omega
    | k + 1 =>
      constructor
      · intro _
        have : Int.negSucc (k + 1) = -((k : Int) + 2) := by
          rw [Int.negSucc_eq]; push_cast; ring
        omega
      · intro _
        refine ⟨.indexOutOfRange, ?_⟩
        unfold GetNybbleFromIP
        simp only []
        rw [tdiv_two_negSucc, index_neg a _ (by omega)]
        rfl

/-- C16, the index -1: Go's `/` rounds toward zero, so `-1 / 2` is 0 and
`-1 % 2` is not 0; the call reads byte 0 and returns its low nybble instead
of failing. -/
theorem GetNybbleFromIP_minus_one :
    GetNybbleFromIP [0xab, 0, 0, 0, 0, 0, 0, 0, 0, 0, 0, 0, 0, 0, 0, 1] (-1) = .ok 0xb := by
  decide

theorem pack_pair (x y : Nat) (hy : y < 16) : (x <<< 4) % 256 ^^^ y < 256 ∧
    ((x <<< 4) % 256 ^^^ y) / 16 = (x <<< 4) % 256 / 16 ∧ ((x <<< 4) % 256 ^^^ y) % 16 = y := by
  have hdvd : 2 ^ 4 ∣ (x <<< 4) % 256 := by
    rw [Nat.shiftLeft_eq]
    omega
  rw [xor_eq_add_of_dvd _ y 4 hdvd hy]
  have hlt : (x <<< 4) % 256 < 256 := Nat.mod_lt _ (by decide)
  omega

theorem shift_high (x : Nat) (hx : x < 16) : (x <<< 4) % 256 / 16 = x := by
  rw [Nat.shiftLeft_eq]
  omega

theorem packNybbles_spec (ns : List Nat) :
    (∀ x ∈ ns, x < 16) →
      (packNybbles ns).length = ns.length / 2 ∧ (∀ b ∈ packNybbles ns, b < 256) ∧
      ∀ i, i < 2 * (ns.length / 2) → nybbleAt (packNybbles ns) i = ns.getD i 0 := by
  induction ns using packNybbles.induct with
  | case1 x y rest ih =>
    intro h
    have hx : x < 16 := h x (by simp)
    have hy : y < 16 := h y (by simp)
    obtain ⟨ih1, ih2, ih3⟩ := ih (fun z hz => h z (by simp [hz]))
    obtain ⟨p1, p2, p3⟩ := pack_pair x y hy
    simp only [packNybbles, List.length_cons]
    refine ⟨by rw [ih1]; omega, ?_, ?_⟩
    · intro b hb
      rcases List.mem_cons.mp hb with hb | hb
      · rw [hb]; exact p1
      · exact ih2 b hb
    · intro i hi
      match i with
      | 0 => simp [nybbleAt, p2, shift_high x hx]
      | 1 => simp [nybbleAt, p3]
      | k + 2 =>
        have h2 : (k + 2) / 2 = k / 2 + 1 := by omega
        have h3 : (k + 2) % 2 = k % 2 := by omega
        have hk := ih3 k (by omega)
        simp only [nybbleAt, h2, h3, List.getD_cons_succ] at hk ⊢
        exact hk
  | case2 t ht =>
    intro _
    match t, ht with
    | [], _ => simp [packNybbles]
    | [x], _ => simp [packNybbles]
    | x :: y :: rest, ht => exact absurd rfl (ht x y rest)

/-- C17 as stated fails: two nybbles give one byte, not a 16-byte address
padded with zeros. -/
theorem NybblesToIP_no_padding :
    NybblesToIP [1, 2] = [0x12] ∧ ¬ IsAddr (NybblesToIP [1, 2]) := by
  decide

/-- C17, amended: for nybbles in 0..15 `NybblesToIP` returns as many bytes
as there are pairs of nybbles, with no padding; nybble `i` of the result is
the `i`-th input nybble for every `i` below twice that number, and for fewer
than 32 nybbles the result has fewer than 16 bytes. -/
theorem NybblesToIP_pairs (ns : List Nat) (h : ∀ x ∈ ns, x < 16) :
    (NybblesToIP ns).length = ns.length / 2 ∧ (∀ b ∈ NybblesToIP ns, b < 256) ∧
    (∀ i, i < 2 * (ns.length / 2) → nybbleAt (NybblesToIP ns) i = ns.getD i 0) ∧
    (ns.length < 32 → (NybblesToIP ns).length < 16) := by
  rw [NybblesToIP_eq]
  obtain ⟨h1, h2, h3⟩ := packNybbles_spec ns h
  exact ⟨h1, h2, h3, fun hlt => by rw [h1]; omega⟩

/-! ## Artifact store -/

theorem GetBlacklist_empty_dir_cached {ν β : Type} (b : β) (path dir : String) (box : Box ν β)
    (readFromFile : String → Option β × Option GoErr) :
    GetBlacklist ⟨some b, path⟩ dir (.ok "") box readFromFile
      = ((some b, none), ⟨some b, path⟩) := by
  simp [GetBlacklist]

theorem GetBlacklist_empty_dir_fresh {ν β : Type} (b : β) (path dir : String) (box : Box ν β)
    (readFromFile : String → Option β × Option GoErr) (hbox : getBlacklistFromBox box = .ok b) :
    GetBlacklist ⟨none, path⟩ dir (.ok "") box readFromFile
      = ((some b, none), ⟨some b, ""⟩) := by
  simp [GetBlacklist, hbox, UpdateBlacklist]

/-- C18, the stale cache: the cache holds blacklist 1, loaded earlier from the
file `blacklists/0001`; the directory is now empty and the bundled asset
decodes to blacklist 2; `GetBlacklist` returns blacklist 1. -/
theorem GetBlacklist_returns_stale_cache :
    getBlacklistFromBox (sampleBox 2) = .ok 2 ∧
    GetBlacklist ⟨some 1, "blacklists/0001"⟩ "blacklists" (.ok "") (sampleBox 2)
        (fun _ => (some 1, none))
      = ((some 1, none), ⟨some 1, "blacklists/0001"⟩) :=
  ⟨rfl, GetBlacklist_empty_dir_cached 1 "blacklists/0001" "blacklists" (sampleBox 2) _⟩

theorem GetAliasedNetworks_read_error {ν : Type} (cache : AliasedCache ν) (dir fileName : String)
    (readFromFile : String → Option ν × Option GoErr) (e : GoErr) (v : Option ν)
    (hname : fileName ≠ "") (hpath : joinPath dir fileName ≠ cache.curAliasedNetworksPath)
    (hread : readFromFile (joinPath dir fileName) = (v, some e)) :
    GetAliasedNetworks cache dir (.ok fileName) readFromFile = ((v, some e), cache) := by
  simp [GetAliasedNetworks, hname, hpath, hread]

/-- C19, the swallowed read error: the target-network file exists and
`ioutil.ReadFile` fails with an error; `GetMostRecentTargetNetworkString`
returns the empty string and a nil error. -/
theorem GetMostRecentTargetNetworkString_swallows_read_error :
    GetMostRecentTargetNetworkString true (.error (.ioError 5))
        (fun _ => (.ok () : Except GoErr Unit)) (fun _ => "::/0")
      = ("", none) := by
  rfl

/-! ## Division by zero in `GetUniqueIPs` -/

theorem GetUniqueIPs_zero {κ : Type} [DecidableEq κ] (key : IP → κ) (L : List IP)
    (hL : L ≠ []) : GetUniqueIPs key L 0 = .error .divideByZero := by
  match L, hL with
  | ip :: rest, _ =>
    unfold GetUniqueIPs GetUniqueIPs.loop
    rw [if_pos rfl]

theorem GetUniqueIPs_nil {κ : Type} [DecidableEq κ] (key : IP → κ) (updateFreq : Int) :
    GetUniqueIPs key [] updateFreq = .ok [] := by
  unfold GetUniqueIPs GetUniqueIPs.loop
  rfl

/-- C20: `GetUniqueIPs` returns a list exactly when the input is empty or
`updateFreq` is not zero; on a non-empty input with `updateFreq = 0` it stops
with a division by zero, and so do the nybble fan-out over a non-empty list of
16-byte addresses (range `0 ≤ f < t ≤ 32`) and the clean command on a
non-empty input when `LogLoopEmitFreq` is 0. -/
theorem GetUniqueIPs_total_iff {κ : Type} [DecidableEq κ] (key : IP → κ) (L A : List IP)
    (updateFreq f t : Int) (cleanIPList : List IP → Int → Except GoErr (List IP))
    (hA : A ≠ []) (hAddr : ∀ a ∈ A, IsAddr a) (hf : 0 ≤ f) (hft : f < t) (ht : t ≤ 32) :
    ((∃ r, GetUniqueIPs key L updateFreq = .ok r) ↔ (L = [] ∨ updateFreq ≠ 0)) ∧
    (L ≠ [] → GetUniqueIPs key L 0 = .error .divideByZero) ∧
    GetAdjacentNetworkAddressesFromIPs key 0 A f t = .error .divideByZero ∧
    RunClean key 0 A cleanIPList = .error .divideByZero := by
  refine ⟨?_, GetUniqueIPs_zero key L, ?_, ?_⟩
  · constructor
    · rintro ⟨r, hr⟩
      by_cases hL : L = []
      · exact Or.inl hL
      · refine Or.inr (fun h0 => ?_)
        rw [h0, GetUniqueIPs_zero key L hL] at hr
        exact Except.noConfusion hr
    · rintro (hL | hu)
      · rw [hL]
        exact ⟨[], GetUniqueIPs_nil key updateFreq⟩
      · exact ⟨_, GetUniqueIPs_eq key L updateFreq hu⟩
  · obtain ⟨fn, rfl⟩ := Int.eq_ofNat_of_zero_le hf
    obtain ⟨tn, rfl⟩ := Int.eq_ofNat_of_zero_le (Int.le_trans hf (Int.le_of_lt hft))
    unfold GetAdjacentNetworkAddressesFromIPs
    rw [IPs_loop_eq fn tn (by omega) (by omega) A hAddr [], ok_bind, List.nil_append]
    apply GetUniqueIPs_zero
    match A, hA with
    | a :: rest, _ => simp
  · unfold RunClean
    rw [GetUniqueIPs_zero key A hA]
    rfl

/-! ## The later theorems at concrete inputs -/

theorem state_file_roundtrip_witness :
    (0 : Int) ≤ 5 ∧ (5 : Int) ≤ 8 ∧
      ((SetStateFile (some [2]) none 5).2 = none ∧
      fetchStateFromFile (SetStateFile (some [2]) none 5).1 none = (5, none)) :=
  ⟨by decide, by decide, state_file_roundtrip (some [2]) 5 (by decide) (by decide)⟩

theorem RunStateMachine_cycle_witness :
    2 ≤ 8 ∧ (∀ k st, k ≤ 6 → quietEnv.stage k st = none) ∧
    (∀ k, k ≤ 6 → quietEnv.write k = none) ∧
      ∃ d, RunStateMachine quietEnv (some [2]) none (6 + 1) = .running d ∧
        d.calls = (List.range (6 + 1)).map (callAt quietEnv.cleanUpEnabled 2) ∧
        d.calls.get? 6 = some ((((2 + 6) % 9 : Nat) : Int),
          stageOf quietEnv.cleanUpEnabled (((2 + 6) % 9 : Nat) : Int)) ∧
        d.file = some [(2 + 6 + 1) % 9] ∧
        d.state = (((2 + 6 + 1) % 9 : Nat) : Int) ∧
        (∀ c ∈ d.calls, 0 ≤ c.1 ∧ c.1 ≤ 8) ∧
        (2 = 2 → 6 ≤ 6 →
          d.calls.head? = some (2, some Stage.postScanCleanup) ∧
          (d.calls.take 7).map Prod.fst = [2, 3, 4, 5, 6, 7, 8]) :=
  ⟨by decide, fun _ _ _ => rfl, fun _ _ => rfl,
    RunStateMachine_cycle quietEnv 2 6 (by decide) (fun _ _ _ => rfl) (fun _ _ => rfl)⟩

theorem RunStateMachine_stage_error_witness :
    2 ≤ 8 ∧ (∀ k st, k < 1 → failingEnv.stage k st = none) ∧
    (∀ k, k < 1 → failingEnv.write k = none) ∧
    stageOf failingEnv.cleanUpEnabled (((2 + 1) % 9 : Nat) : Int)
      = some Stage.fanOutNybbleAdjacent ∧
    failingEnv.stage 1 Stage.fanOutNybbleAdjacent = some (GoErr.stageFailed 1) ∧ 1 < 4 ∧
      ((∀ d : Driver, stageOf failingEnv.cleanUpEnabled d.state = some Stage.fanOutNybbleAdjacent →
        ∃ d', RunStateMachine.iteration failingEnv 1 d = .returned (GoErr.stageFailed 1) d' ∧
          d'.file = d.file ∧ d'.state = d.state) ∧
      ∃ d, RunStateMachine failingEnv (some [2]) none 4 = .returned (GoErr.stageFailed 1) d ∧
        d.file = some [(2 + 1) % 9] ∧ d.state = (((2 + 1) % 9 : Nat) : Int)) :=
  have h1 : ∀ k st, k < 1 → failingEnv.stage k st = none := by
    intro k st hk
    have hk0 : k = 0 := by omega
    rw [hk0]
    rfl
  ⟨by decide, h1, fun _ _ => rfl, rfl, rfl, by decide,
    RunStateMachine_stage_error failingEnv 2 1 4 Stage.fanOutNybbleAdjacent (GoErr.stageFailed 1)
      (by decide) h1 (fun _ _ => rfl) rfl rfl (by decide)⟩

theorem checkNetworkForAliased_threshold_witness :
    ([loopback] : List IP) ≠ [] ∧ (0 : ℚ) ≤ 5 / 2 ∧ (5 / 2 : ℚ) < 2 ^ 63 ∧
      ∃ ip aliased, checkNetworkForAliased [loopback] none none (.ok [loopback, docAddr]) (5 / 2)
            (-(2 ^ 63))
          = .ok (ip, aliased) ∧
        (aliased = true ↔ ⌊(5 / 2 : ℚ)⌋ ≤ (([loopback, docAddr] : List IP).length : Int)) :=
  ⟨by simp, by norm_num, by norm_num,
    checkNetworkForAliased_threshold [loopback] [loopback, docAddr] (5 / 2) (-(2 ^ 63))
      (by simp) (by norm_num) (by norm_num)⟩

theorem NybblesToIP_pairs_witness :
    (∀ x ∈ [1, 2, 3, 4], x < 16) ∧
      ((NybblesToIP [1, 2, 3, 4]).length = ([1, 2, 3, 4] : List Nat).length / 2 ∧
      (∀ b ∈ NybblesToIP [1, 2, 3, 4], b < 256) ∧
      (∀ i, i < 2 * (([1, 2, 3, 4] : List Nat).length / 2) →
        nybbleAt (NybblesToIP [1, 2, 3, 4]) i = ([1, 2, 3, 4] : List Nat).getD i 0) ∧
      (([1, 2, 3, 4] : List Nat).length < 32 → (NybblesToIP [1, 2, 3, 4]).length < 16)) :=
  ⟨by decide, NybblesToIP_pairs [1, 2, 3, 4] (by decide)⟩

theorem GetUniqueIPs_total_iff_witness :
    ([loopback] : List IP) ≠ [] ∧ (∀ a ∈ [loopback], IsAddr a) ∧ (0 : Int) ≤ 31 ∧
    (31 : Int) < 32 ∧ (32 : Int) ≤ 32 ∧
      (((∃ r, GetUniqueIPs id [loopback, docAddr] 0 = .ok r)
          ↔ (([loopback, docAddr] : List IP) = [] ∨ (0 : Int) ≠ 0)) ∧
      (([loopback, docAddr] : List IP) ≠ [] →
        GetUniqueIPs id [loopback, docAddr] 0 = .error .divideByZero) ∧
      GetAdjacentNetworkAddressesFromIPs id 0 [loopback] 31 32 = .error .divideByZero ∧
      RunClean id 0 [loopback] (fun l _ => .ok l) = .error .divideByZero) :=
  ⟨by simp, by decide, by decide, by decide, by decide,
    GetUniqueIPs_total_iff id [loopback, docAddr] [loopback] 0 31 32 (fun l _ => .ok l)
      (by simp) (by decide) (by decide) (by decide) (by decide)⟩

end Ipv666
